import Mathlib

/-!
Shallow embedding of src/0lab/automaton.py: finite automata (DFA, NFA, ε-NFA),
structural validation, word processing, epsilon closure, and the two
conversions (NFA→DFA subset construction, ε-NFA→NFA epsilon elimination).

Python sets are embedded as lists considered up to membership (deduplicated
on construction, mirroring set(...)); Python dicts are embedded as
association lists looked up by first match (mirroring insertion-ordered
dicts whose keys are unique in all actual uses); dict.get with a default is
embedded as a total lookup returning the default.
-/

/-- The reserved epsilon marker (module-level constant EPSILON = "epsilon"). -/
def EPSILON : String := "epsilon"

/-- A row of an NFA/ε-NFA transition table: symbol ↦ list of target states. -/
abbrev Row := List (String × List String)

/-- An NFA/ε-NFA transition table: state ↦ row (Python dict of dicts). -/
abbrev Table := List (String × Row)

/-- A row of a DFA transition table: symbol ↦ single target state. -/
abbrev DRow := List (String × String)

/-- A DFA transition table. -/
abbrev DTable := List (String × DRow)

/-- `transitions.get(state, {})`. -/
def rowOf (tr : Table) (s : String) : Row :=
  ((tr.find? (fun p => p.1 == s)).map (·.2)).getD []

/-- `row.get(symbol, [])` for NFA rows. -/
def targetsOf (r : Row) (a : String) : List String :=
  ((r.find? (fun p => p.1 == a)).map (·.2)).getD []

/-- `transitions.get(state, {})` for a DFA table. -/
def dRowOf (tr : DTable) (s : String) : DRow :=
  ((tr.find? (fun p => p.1 == s)).map (·.2)).getD []

/-- `row.get(symbol)` for DFA rows: `none` models Python's `None`. -/
def dTargetOf (r : DRow) (a : String) : Option String :=
  (r.find? (fun p => p.1 == a)).map (·.2)

/-- `not A.isdisjoint(B)`: the two lists share a member. -/
def inter (A B : List String) : Bool := A.any (fun x => B.contains x)

/-- Union over `s ∈ S` of `transitions.get(s, {}).get(a, [])`
(a Python set union, embedded as concatenation considered up to membership). -/
def stepSet (tr : Table) (S : List String) (a : String) : List String :=
  S.flatMap (fun s => targetsOf (rowOf tr s) a)

/-- Deduplication keeping first occurrences, mirroring `set(...)` built by
insertion (membership is all downstream code depends on). -/
def dedupF (seen : List String) : List String → List String
  | [] => []
  | x :: xs => if seen.contains x then dedupF seen xs else x :: dedupF (x :: seen) xs

/-- `set(l)` as a list without duplicates. -/
def setList (l : List String) : List String := dedupF [] l

/-- Character comparison by code point, used to embed Python's `sorted`. -/
def charLe (a b : Char) : Bool := a.val ≤ b.val

/-- Lexicographic string comparison, used to embed Python's `sorted`. -/
def strLeAux : List Char → List Char → Bool
  | [], _ => true
  | _ :: _, [] => false
  | c :: cs, d :: ds => if c = d then strLeAux cs ds else charLe c d

/-- Lexicographic string comparison on the underlying characters. -/
def strLe (a b : String) : Bool := strLeAux a.data b.data

/-- Insert into a sorted list (helper for `sortStr`). -/
def insSorted (x : String) : List String → List String
  | [] => [x]
  | y :: ys => if strLe x y then x :: y :: ys else y :: insSorted x ys

/-- `sorted(l)`: insertion sort by `strLe`. -/
def sortStr : List String → List String
  | [] => []
  | x :: xs => insSorted x (sortStr xs)

/-- The automaton model shared by NFA and ε-NFA (states, alphabet and finals
are Python sets; the transition table is kept as given). -/
structure NFAModel where
  states : List String
  alphabet : List String
  transitions : Table
  start : String
  finals : List String

/-- The DFA model (same fields, deterministic transition table). -/
structure DFAModel where
  states : List String
  alphabet : List String
  transitions : DTable
  start : String
  finals : List String

/-- Why a run stopped. -/
inductive Reason where
  | finished : Reason
  | badSymbol : Reason
  | noTransition : Reason
  | emptySet : Reason
deriving DecidableEq, Repr

/-- One trace record: step index, symbol consumed, resulting configuration,
remaining suffix (the data of the Python trace line). -/
structure StepEntry (κ : Type) where
  idx : Nat
  symbol : String
  conf : κ
  remaining : List String
deriving DecidableEq, Repr

/-- The structured result of `process_word`: accepted flag, stop reason,
accumulated trace, final configuration. -/
structure RunResult (κ : Type) where
  accepted : Bool
  reason : Reason
  trace : List (StepEntry κ)
  final : κ
deriving DecidableEq, Repr

/-- Loop body of `DFA.process_word`. -/
def dfaGo (m : DFAModel) (q : String) (i : Nat) (acc : List (StepEntry String)) :
    List String → RunResult String
  | [] => ⟨m.finals.contains q, .finished, acc, q⟩
  | a :: w =>
    if m.alphabet.contains a then
      match dTargetOf (dRowOf m.transitions q) a with
      | some q' => dfaGo m q' (i + 1) (acc ++ [⟨i + 1, a, q', w⟩]) w
      | none => ⟨false, .noTransition, acc, q⟩
    else ⟨false, .badSymbol, acc, q⟩

/-- `DFA.process_word`. -/
def DFAModel.processWord (m : DFAModel) (w : List String) : RunResult String :=
  dfaGo m m.start 0 [] w

/-- Loop body of `NFA.process_word`. -/
def nfaGo (m : NFAModel) (cur : List String) (i : Nat) (acc : List (StepEntry (List String))) :
    List String → RunResult (List String)
  | [] => ⟨inter m.finals cur, .finished, acc, cur⟩
  | a :: w =>
    if m.alphabet.contains a then
      let next := stepSet m.transitions cur a
      if next.isEmpty then ⟨false, .emptySet, acc, next⟩
      else nfaGo m next (i + 1) (acc ++ [⟨i + 1, a, next, w⟩]) w
    else ⟨false, .badSymbol, acc, cur⟩

/-- `NFA.process_word`. -/
def NFAModel.processWord (m : NFAModel) (w : List String) : RunResult (List String) :=
  nfaGo m [m.start] 0 [] w

/-- Epsilon moves of one state: `transitions.get(state, {}).get(EPSILON, [])`. -/
def epsMoves (tr : Table) (s : String) : List String := targetsOf (rowOf tr s) EPSILON

/-- All epsilon targets appearing anywhere in the table (a finite universe
bounding what `epsilon_closure` can ever add). -/
def epsUnivList (tr : Table) : List String := tr.flatMap (fun p => targetsOf p.2 EPSILON)

/-- Worklist loop of `ENFA.epsilon_closure`: pop a state, add its unseen
epsilon targets to the closure and push them. The fuel argument only makes
the recursion structural; `epsilonClosure` supplies enough fuel for the
stack to empty, since each state is pushed at most once. -/
def closureLoop (tr : Table) : Nat → List String → List String → List String
  | 0, closure, _ => closure
  | _ + 1, closure, [] => closure
  | fuel + 1, closure, st :: stack =>
    let fresh := dedupF [] ((epsMoves tr st).filter (fun m => !closure.contains m))
    closureLoop tr fuel (closure ++ fresh) (fresh ++ stack)

/-- `ENFA.epsilon_closure(states)`. -/
def epsilonClosure (tr : Table) (S : List String) : List String :=
  closureLoop tr (S.length + (epsUnivList tr).length + 1) (setList S) (setList S)

/-- Loop body of `ENFA.process_word`. -/
def enfaGo (m : NFAModel) (cur : List String) (i : Nat) (acc : List (StepEntry (List String))) :
    List String → RunResult (List String)
  | [] => ⟨inter m.finals cur, .finished, acc, cur⟩
  | a :: w =>
    if m.alphabet.contains a then
      let mv := stepSet m.transitions cur a
      let next := epsilonClosure m.transitions mv
      if next.isEmpty then ⟨false, .emptySet, acc, next⟩
      else enfaGo m next (i + 1) (acc ++ [⟨i + 1, a, next, w⟩]) w
    else ⟨false, .badSymbol, acc, cur⟩

/-- `ENFA.process_word`: starts from the epsilon closure of the start state. -/
def ENFA.processWord (m : NFAModel) (w : List String) : RunResult (List String) :=
  enfaGo m (epsilonClosure m.transitions [m.start]) 0 [] w

/-- The target set `ENFA.to_nfa` computes for one (state, symbol) pair:
the epsilon closure of the symbol-move out of the state's epsilon closure. -/
def enfaTgt (tr : Table) (s a : String) : List String :=
  epsilonClosure tr (stepSet tr (epsilonClosure tr [s]) a)

/-- One iteration of `ENFA.to_nfa`'s inner symbol loop: record the target
set (sorted) only when it is non-empty. -/
def enfaRowStep (tr : Table) (s : String) (row : Row) (a : String) : Row :=
  if (enfaTgt tr s a).isEmpty then row else row ++ [(a, sortStr (enfaTgt tr s a))]

/-- The new transition row `ENFA.to_nfa` builds for one state. -/
def enfaRow (m : NFAModel) (s : String) : Row :=
  m.alphabet.foldl (enfaRowStep m.transitions s) []

/-- `ENFA.to_nfa`: same states, alphabet and start; finals recomputed from
epsilon closures over all states; each (state, alphabet symbol) maps to the
epsilon closure of the symbol-move out of the state's epsilon closure,
stored (sorted) only when non-empty. -/
def ENFA.toNFA (m : NFAModel) : NFAModel where
  states := m.states
  alphabet := m.alphabet
  transitions := m.states.map (fun s => (s, enfaRow m s))
  start := m.start
  finals := m.states.filter (fun s => inter m.finals (epsilonClosure m.transitions [s]))

/-- Decimal digits of a natural number (fuel-structural so that it reduces;
`natRepr` supplies sufficient fuel). -/
def digitsAux : Nat → Nat → List Char
  | 0, _ => []
  | f + 1, n => if n < 10 then [Nat.digitChar n] else digitsAux f (n / 10) ++ [Nat.digitChar (n % 10)]

/-- Decimal representation of a natural number, as in Python f-strings. -/
def natRepr (n : Nat) : String := ⟨digitsAux (n + 1) n⟩

/-- DFA state names "Q0", "Q1", … (`f"Q{next_state_idx}"`). -/
def mkName (i : Nat) : String := "Q" ++ natRepr i

/-- Equality of the member sets of two lists (frozenset equality). -/
def setEqB (a b : List String) : Bool := a.all (fun x => b.contains x) && b.all (fun x => a.contains x)

/-- `state_names[T]`: lookup in the subset→name map by set equality.  The
default is never reached: every looked-up subset has been assigned a name. -/
def findName (names : List (List String × String)) (T : List String) : String :=
  ((names.find? (fun p => setEqB p.1 T)).map (·.2)).getD ""

/-- `T in processed_states` (a set of frozensets). -/
def memKey (ks : List (List String)) (T : List String) : Bool := ks.any (fun k => setEqB k T)

/-- Mutable state of `NFA.to_dfa`: FIFO worklist, processed subsets,
subset→name map, next fresh index, and the accumulated DFA pieces. -/
structure BuildSt where
  queue : List (List String)
  processed : List (List String)
  names : List (List String × String)
  nextIdx : Nat
  rows : DTable
  dstates : List String
  dfinals : List String

/-- Inner loop body of `NFA.to_dfa` for one (popped subset, symbol) pair:
compute the target union `T`; skip it entirely when empty; otherwise name and
enqueue it if new, and record the transition. -/
def procSym (tr : Table) (cur : List String) (st : BuildSt × DRow) (a : String) : BuildSt × DRow :=
  let T := stepSet tr cur a
  if T.isEmpty then st
  else
    let b :=
      if memKey st.1.processed T then st.1
      else
        { st.1 with
          processed := st.1.processed ++ [T]
          queue := st.1.queue ++ [T]
          names := st.1.names ++ [(T, mkName st.1.nextIdx)]
          nextIdx := st.1.nextIdx + 1 }
    (b, st.2 ++ [(a, findName b.names T)])

/-- Outer worklist loop of `NFA.to_dfa` (FIFO: pop at the head, append at
the tail).  The fuel argument only makes the recursion structural;
`subsetBuild` supplies enough fuel for the queue to empty, since distinct
subsets of the finite universe number at most 2^|universe|. -/
def buildLoop (nfa : NFAModel) : Nat → BuildSt → BuildSt
  | 0, st => st
  | fuel + 1, st =>
    match st.queue with
    | [] => st
    | S :: rest =>
      let nm := findName st.names S
      let st1 : BuildSt :=
        { st with
          queue := rest
          dstates := st.dstates ++ [nm]
          dfinals := if inter nfa.finals S then st.dfinals ++ [nm] else st.dfinals }
      let pr := nfa.alphabet.foldl (procSym nfa.transitions S) (st1, ([] : DRow))
      buildLoop nfa fuel { pr.1 with rows := pr.1.rows ++ [(nm, pr.2)] }

/-- Initial build state: the subset {start} is already discovered, named Q0,
and queued. -/
def initBuild (nfa : NFAModel) : BuildSt :=
  ⟨[[nfa.start]], [[nfa.start]], [([nfa.start], mkName 0)], 1, [], [], []⟩

/-- Every state that can ever occur in a subset built by `NFA.to_dfa`:
the start state and every target in the table. -/
def subsetUniv (nfa : NFAModel) : List String :=
  nfa.start :: nfa.transitions.flatMap (fun p => p.2.flatMap (fun q => q.2))

/-- Fuel that the subset construction can never exhaust. -/
def dfaFuel (nfa : NFAModel) : Nat := 2 ^ (subsetUniv nfa).length + 1

/-- The completed worklist state of `NFA.to_dfa`. -/
def subsetBuild (nfa : NFAModel) : BuildSt := buildLoop nfa (dfaFuel nfa) (initBuild nfa)

/-- `NFA.to_dfa`: package the completed build as a DFA with start "Q0". -/
def NFAModel.toDFA (nfa : NFAModel) : DFAModel :=
  let b := subsetBuild nfa
  ⟨b.dstates, nfa.alphabet, b.rows, mkName 0, b.dfinals⟩

/-- A fatal structural violation found by `validate` (the data of the
corresponding Russian error f-string). -/
inductive VError where
  | startNotInStates : String → VError
  | finalNotInStates : String → VError
  | sourceNotInStates : String → VError
  | targetNotInStates : String → VError
deriving DecidableEq, Repr

/-- An advisory found by `validate` (the data of the warning f-strings). -/
inductive VWarn where
  | symbolNotInAlphabet : String → VWarn
  | noTransitionsForState : String → VWarn
  | missingSymbol : String → String → VWarn
deriving DecidableEq, Repr

/-- The fatal errors collected by `FiniteAutomaton.validate`, in source
order: start check, finals pass, then one pass over the transition table
emitting for each row its source check followed by its target checks. -/
def validateErrors (states : List String) (tr : Table) (start : String)
    (finals : List String) : List VError :=
  (if states.contains start then [] else [.startNotInStates start])
  ++ (finals.filter (fun s => !states.contains s)).map .finalNotInStates
  ++ tr.flatMap (fun p =>
      (if states.contains p.1 then [] else [.sourceNotInStates p.1])
      ++ p.2.flatMap (fun q => (q.2.filter (fun t => !states.contains t)).map .targetNotInStates))

/-- The advisories collected by `FiniteAutomaton.validate`: alphabet
membership of transition symbols (epsilon exempt) during the table pass,
then per-state coverage gaps. -/
def validateWarnings (states alphabet : List String) (tr : Table) : List VWarn :=
  tr.flatMap (fun p => p.2.flatMap (fun q =>
      if q.1 != EPSILON && !alphabet.contains q.1 then [.symbolNotInAlphabet q.1] else []))
  ++ states.flatMap (fun s =>
      match tr.find? (fun p => p.1 == s) with
      | none => [.noTransitionsForState s]
      | some _ => alphabet.flatMap (fun a =>
          if (rowOf tr s).find? (fun q => q.1 == a) |>.isNone then [.missingSymbol s a] else []))

/-- A DFA table viewed as an NFA table (the `isinstance` branch of
`validate`: a single target is wrapped as `[to_states]`). -/
def dfaToTable (t : DTable) : Table := t.map (fun p => (p.1, p.2.map (fun q => (q.1, [q.2]))))

/-- NFA/ε-NFA construction (`FiniteAutomaton.__init__` + `validate`):
deduplicate the set-valued fields, then fail with the collected fatal errors
or succeed returning the model together with the advisories. -/
def construct (states alphabet : List String) (tr : Table) (start : String)
    (finals : List String) : Except (List VError) (NFAModel × List VWarn) :=
  let st := setList states
  let al := setList alphabet
  let fi := setList finals
  let errs := validateErrors st tr start fi
  if errs.isEmpty then .ok (⟨st, al, tr, start, fi⟩, validateWarnings st al tr)
  else .error errs

/-- DFA construction: identical checks, with DFA rows wrapped pointwise. -/
def constructD (states alphabet : List String) (tr : DTable) (start : String)
    (finals : List String) : Except (List VError) (DFAModel × List VWarn) :=
  let st := setList states
  let al := setList alphabet
  let fi := setList finals
  let errs := validateErrors st (dfaToTable tr) start fi
  if errs.isEmpty then .ok (⟨st, al, tr, start, fi⟩, validateWarnings st al (dfaToTable tr))
  else .error errs

/-- Reachability along epsilon transitions from a base set: the declarative
specification that `epsilon_closure` computes. -/
inductive EpsReach (tr : Table) (S : List String) : String → Prop
  | base {x : String} : x ∈ S → EpsReach tr S x
  | step {x y : String} : EpsReach tr S x → y ∈ epsMoves tr x → EpsReach tr S y

/-- Declarative DFA stepping: `DfaSteps m q w q'` holds when from `q` the
word `w` is consumed symbol by symbol — each symbol in the alphabet and
each transition defined — ending at `q'`. -/
inductive DfaSteps (m : DFAModel) : String → List String → String → Prop
  | nil (q : String) : DfaSteps m q [] q
  | cons {q a q' w q'' : _} :
      m.alphabet.contains a = true →
      dTargetOf (dRowOf m.transitions q) a = some q' →
      DfaSteps m q' w q'' →
      DfaSteps m q (a :: w) q''

/-- Scenario A of the spec: the parity-of-ones DFA. -/
def dfaA : DFAModel :=
  ⟨["A", "B"], ["0", "1"],
   [("A", [("0", "A"), ("1", "B")]), ("B", [("0", "B"), ("1", "A")])], "A", ["B"]⟩

/-- Scenario B NFA (contains substring "ab"). -/
def nfaB : NFAModel :=
  ⟨["S", "A", "F"], ["a", "b"],
   [("S", [("a", ["S", "A"]), ("b", ["S"])]), ("A", [("b", ["F"])]),
    ("F", [("a", ["F"]), ("b", ["F"])])], "S", ["F"]⟩


/-- Scenario C ε-NFA (chain p -ε→ q -a→ r). -/
def enfaC : NFAModel :=
  ⟨["p", "q", "r"], ["a"],
   [("p", [(EPSILON, ["q"])]), ("q", [("a", ["r"])])], "p", ["r"]⟩


/-- One entry of the DFA row built for a popped subset `S`, phrased against
a fixed name map: record a transition only when the target union is
non-empty. -/
def dfaRowStep (tr : Table) (names : List (List String × String)) (S : List String)
    (row : DRow) (a : String) : DRow :=
  if (stepSet tr S a).isEmpty then row else row ++ [(a, findName names (stepSet tr S a))]

/-- The DFA row the subset construction ends up with for subset `S`, against
the final name map. -/
def dfaRowFor (tr : Table) (names : List (List String × String)) (alpha : List String)
    (S : List String) : DRow :=
  alpha.foldl (dfaRowStep tr names S) []

/-- The bookkeeping invariants tying `to_dfa`'s mutable structures together:
the name map's keys are exactly the processed subsets in discovery order,
its values are Q0, Q1, … in that order, processed subsets are pairwise
distinct as sets, non-empty (except the initial singleton is never empty
either), and drawn from the finite universe. -/
def SyncInv (nfa : NFAModel) (b : BuildSt) : Prop :=
  b.names.map (·.1) = b.processed ∧
  b.names.map (·.2) = (List.range b.nextIdx).map mkName ∧
  (b.processed.map List.toFinset).Nodup ∧
  (∀ k ∈ b.processed, ∀ x ∈ k, x ∈ subsetUniv nfa) ∧
  (∀ k ∈ b.processed, k ≠ [])

/-- Full loop invariant of `to_dfa`'s worklist, relative to the list of
already-popped subsets in pop order. -/
structure BInv (nfa : NFAModel) (popped : List (List String)) (st : BuildSt) : Prop where
  sync : SyncInv nfa st
  proc_eq : st.processed = popped ++ st.queue
  dst : st.dstates = popped.map (findName st.names)
  dfin : st.dfinals = (popped.filter (fun K => inter nfa.finals K)).map (findName st.names)
  rows_eq : st.rows = popped.map (fun K =>
      (findName st.names K, dfaRowFor nfa.transitions st.names nfa.alphabet K))
  tcov : ∀ K ∈ popped, ∀ a ∈ nfa.alphabet, (stepSet nfa.transitions K a).isEmpty = false →
      memKey st.processed (stepSet nfa.transitions K a) = true

/-- The complete effect of popping one subset in `NFA.to_dfa`'s loop. -/
def popStep (nfa : NFAModel) (st : BuildSt) (S : List String)
    (rest : List (List String)) : BuildSt :=
  let nm := findName st.names S
  let st1 : BuildSt :=
    { st with
      queue := rest
      dstates := st.dstates ++ [nm]
      dfinals := if inter nfa.finals S then st.dfinals ++ [nm] else st.dfinals }
  let pr := nfa.alphabet.foldl (procSym nfa.transitions S) (st1, [])
  { pr.1 with rows := pr.1.rows ++ [(nm, pr.2)] }

-- Sanity checks on the spec's concrete scenarios (A, B, C, D).

example :
    (DFAModel.processWord
      ⟨["A", "B"], ["0", "1"],
       [("A", [("0", "A"), ("1", "B")]), ("B", [("0", "B"), ("1", "A")])], "A", ["B"]⟩
      ["0", "1"]).accepted = true := by decide

example :
    (DFAModel.processWord
      ⟨["A", "B"], ["0", "1"],
       [("A", [("0", "A"), ("1", "B")]), ("B", [("0", "B"), ("1", "A")])], "A", ["B"]⟩
      ["0", "0"]).accepted = false := by decide

example : (NFAModel.processWord nfaB ["a", "a", "b"]).accepted = true := by decide
example : (NFAModel.processWord nfaB ["b", "a"]).accepted = false := by decide
example : (DFAModel.processWord nfaB.toDFA ["a", "a", "b"]).accepted = true := by decide
example : (DFAModel.processWord nfaB.toDFA ["b", "a"]).accepted = false := by decide
example : nfaB.toDFA.start = "Q0" := by decide

example : (ENFA.processWord enfaC ["a"]).accepted = true := by decide
example : (NFAModel.processWord (ENFA.toNFA enfaC) ["a"]).accepted = true := by decide
example : epsilonClosure enfaC.transitions ["p"] = ["p", "q"] := by decide

-- Basic lemmas about the list-as-set primitives.

theorem inter_iff (A B : List String) : inter A B = true ↔ ∃ x, x ∈ A ∧ x ∈ B := by
  simp [inter, List.any_eq_true, List.elem_iff]

theorem stepSet_mem {tr : Table} {S : List String} {a x : String} :
    x ∈ stepSet tr S a ↔ ∃ s ∈ S, x ∈ targetsOf (rowOf tr s) a := by
  simp [stepSet, List.mem_flatMap]

theorem stepSet_congr {tr : Table} {S S' : List String} {a : String}
    (h : ∀ x, x ∈ S ↔ x ∈ S') : ∀ x, x ∈ stepSet tr S a ↔ x ∈ stepSet tr S' a := by
  intro x
  simp only [stepSet_mem]
  constructor
  · rintro ⟨s, hs, hx⟩; exact ⟨s, (h s).mp hs, hx⟩
  · rintro ⟨s, hs, hx⟩; exact ⟨s, (h s).mpr hs, hx⟩


theorem contains_iff {l : List String} {a : String} : l.contains a = true ↔ a ∈ l := by
  constructor
  · exact fun h => List.elem_iff.mp h
  · exact fun h => List.elem_iff.mpr h

theorem contains_eq_false {l : List String} {a : String} : l.contains a = false ↔ a ∉ l := by
  constructor
  · intro h hm
    have h2 := contains_iff.mpr hm
    rw [h] at h2
    exact Bool.false_ne_true h2
  · intro h
    cases hb : l.contains a with
    | false => rfl
    | true => exact absurd (contains_iff.mp hb) h

theorem mem_dedupF {x : String} : ∀ {seen l : List String},
    x ∈ dedupF seen l ↔ x ∈ l ∧ x ∉ seen := by
  intro seen l
  induction l generalizing seen with
  | nil => simp [dedupF]
  | cons y ys ih =>
    cases hb : seen.contains y with
    | true =>
      have hym : y ∈ seen := contains_iff.mp hb
      rw [show dedupF seen (y :: ys) = dedupF seen ys from by simp only [dedupF, hb]; rfl]
      rw [ih]
      constructor
      · rintro ⟨h1, h2⟩; exact ⟨List.mem_cons_of_mem _ h1, h2⟩
      · rintro ⟨h1, h2⟩
        rcases List.mem_cons.mp h1 with rfl | h1
        · exact absurd hym h2
        · exact ⟨h1, h2⟩
    | false =>
      have hym : y ∉ seen := contains_eq_false.mp hb
      rw [show dedupF seen (y :: ys) = y :: dedupF (y :: seen) ys from by
        simp only [dedupF, hb]; rfl]
      simp only [List.mem_cons]
      rw [ih]
      constructor
      · rintro (rfl | ⟨h1, h2⟩)
        · exact ⟨Or.inl rfl, hym⟩
        · refine ⟨Or.inr h1, fun hc => h2 (List.mem_cons_of_mem _ hc)⟩
      · rintro ⟨rfl | h1, h2⟩
        · exact Or.inl rfl
        · by_cases hxy : x = y
          · exact Or.inl hxy
          · refine Or.inr ⟨h1, fun hc => ?_⟩
            rcases List.mem_cons.mp hc with h | h
            · exact hxy h
            · exact h2 h

theorem nodup_dedupF : ∀ {seen l : List String}, (dedupF seen l).Nodup := by
  intro seen l
  induction l generalizing seen with
  | nil => simp [dedupF]
  | cons y ys ih =>
    cases hb : seen.contains y with
    | true =>
      rw [show dedupF seen (y :: ys) = dedupF seen ys from by simp only [dedupF, hb]; rfl]
      exact ih
    | false =>
      rw [show dedupF seen (y :: ys) = y :: dedupF (y :: seen) ys from by
        simp only [dedupF, hb]; rfl]
      refine List.nodup_cons.mpr ⟨fun hc => ?_, ih⟩
      exact (mem_dedupF.mp hc).2 (List.mem_cons_self _ _)

theorem mem_setList {x : String} {l : List String} : x ∈ setList l ↔ x ∈ l := by
  simp [setList, mem_dedupF]

theorem nodup_setList {l : List String} : (setList l).Nodup := nodup_dedupF

/-- Membership in the batch of states freshly pushed by one worklist step. -/
theorem mem_fresh {tr : Table} {closure : List String} {st z : String} :
    z ∈ dedupF [] ((epsMoves tr st).filter (fun m => !closure.contains m)) ↔
      z ∈ epsMoves tr st ∧ z ∉ closure := by
  rw [mem_dedupF, List.mem_filter]
  constructor
  · rintro ⟨⟨h1, h2⟩, _⟩
    refine ⟨h1, fun hc => ?_⟩
    rw [contains_iff.mpr hc] at h2
    exact absurd h2 (by decide)
  · rintro ⟨h1, h2⟩
    refine ⟨⟨h1, ?_⟩, List.not_mem_nil z⟩
    rw [contains_eq_false.mpr h2]
    rfl

-- Epsilon-closure: worklist lemmas.

theorem epsMoves_subset_univ {tr : Table} {s x : String} (h : x ∈ epsMoves tr s) :
    x ∈ epsUnivList tr := by
  unfold epsMoves targetsOf rowOf at h
  cases hf : tr.find? (fun p => p.1 == s) with
  | none => simp [hf] at h
  | some p =>
    rw [hf] at h
    simp only [Option.map_some', Option.getD_some] at h
    exact List.mem_flatMap.mpr ⟨p, List.mem_of_find?_eq_some hf, h⟩

theorem closureLoop_mono {tr : Table} {x : String} :
    ∀ {fuel : Nat} {closure stack : List String}, x ∈ closure →
      x ∈ closureLoop tr fuel closure stack := by
  intro fuel
  induction fuel with
  | zero => intro closure stack h; simpa [closureLoop] using h
  | succ f ih =>
    intro closure stack h
    cases stack with
    | nil => simpa [closureLoop] using h
    | cons st rest =>
      simp only [closureLoop]
      exact ih (List.mem_append.mpr (Or.inl h))

theorem closureLoop_nodup {tr : Table} :
    ∀ {fuel : Nat} {closure stack : List String}, closure.Nodup →
      (closureLoop tr fuel closure stack).Nodup := by
  intro fuel
  induction fuel with
  | zero => intro closure stack h; simpa [closureLoop] using h
  | succ f ih =>
    intro closure stack h
    cases stack with
    | nil => simpa [closureLoop] using h
    | cons st rest =>
      simp only [closureLoop]
      refine ih (h.append nodup_dedupF ?_)
      intro y hy hc
      exact (mem_fresh.mp hc).2 hy

theorem closureLoop_sound {tr : Table} {S : List String} :
    ∀ {fuel : Nat} {closure stack : List String},
      (∀ c ∈ closure, EpsReach tr S c) → (∀ c ∈ stack, EpsReach tr S c) →
      ∀ x ∈ closureLoop tr fuel closure stack, EpsReach tr S x := by
  intro fuel
  induction fuel with
  | zero => intro closure stack hc _ x hx; exact hc x (by simpa [closureLoop] using hx)
  | succ f ih =>
    intro closure stack hc hs x hx
    cases stack with
    | nil => exact hc x (by simpa [closureLoop] using hx)
    | cons st rest =>
      simp only [closureLoop] at hx
      have hfresh : ∀ y ∈ dedupF [] ((epsMoves tr st).filter
          (fun m => !closure.contains m)), EpsReach tr S y := by
        intro y hy
        exact .step (hs st (List.mem_cons_self _ _)) (mem_fresh.mp hy).1
      refine ih ?_ ?_ x hx
      · intro c hcm
        rcases List.mem_append.mp hcm with h | h
        · exact hc c h
        · exact hfresh c h
      · intro c hcm
        rcases List.mem_append.mp hcm with h | h
        · exact hfresh c h
        · exact hs c (List.mem_cons_of_mem _ h)

theorem closureLoop_closed {tr : Table} {U : List String}
    (hU : ∀ s, ∀ x ∈ epsMoves tr s, x ∈ U) :
    ∀ {fuel : Nat} {closure stack : List String},
      closure.Nodup → (∀ x ∈ closure, x ∈ U) → (∀ x ∈ stack, x ∈ closure) →
      (∀ c ∈ closure, c ∈ stack ∨ ∀ y ∈ epsMoves tr c, y ∈ closure) →
      stack.length + U.dedup.length ≤ fuel + closure.length →
      ∀ c ∈ closureLoop tr fuel closure stack, ∀ y ∈ epsMoves tr c,
        y ∈ closureLoop tr fuel closure stack := by
  intro fuel
  induction fuel with
  | zero =>
    intro closure stack hnd hcU _ hcl hfuel c hcm y hy
    have hlen : closure.length ≤ U.dedup.length := by
      refine List.Subperm.length_le (hnd.subperm ?_)
      intro x hx
      exact List.mem_dedup.mpr (hcU x hx)
    have hst : stack = [] := by
      cases stack with
      | nil => rfl
      | cons a l => simp only [List.length_cons] at hfuel; omega
    subst hst
    simp only [closureLoop] at hcm ⊢
    rcases hcl c hcm with h | h
    · exact absurd h (List.not_mem_nil c)
    · exact h y hy
  | succ f ih =>
    intro closure stack hnd hcU hsc hcl hfuel c hcm y hy
    cases stack with
    | nil =>
      simp only [closureLoop] at hcm ⊢
      rcases hcl c hcm with h | h
      · exact absurd h (List.not_mem_nil c)
      · exact h y hy
    | cons st rest =>
      simp only [closureLoop] at hcm ⊢
      refine ih (hnd.append nodup_dedupF ?_) ?_ ?_ ?_ ?_ c hcm y hy
      · intro z hz hzf
        exact (mem_fresh.mp hzf).2 hz
      · intro x hx
        rcases List.mem_append.mp hx with h | h
        · exact hcU x h
        · exact hU st x (mem_fresh.mp h).1
      · intro x hx
        rcases List.mem_append.mp hx with h | h
        · exact List.mem_append.mpr (Or.inr h)
        · exact List.mem_append.mpr (Or.inl (hsc x (List.mem_cons_of_mem _ h)))
      · intro d hd
        rcases List.mem_append.mp hd with h | h
        · rcases hcl d h with h2 | h2
          · rcases List.mem_cons.mp h2 with rfl | h3
            · right
              intro z hz
              by_cases hzc : z ∈ closure
              · exact List.mem_append.mpr (Or.inl hzc)
              · exact List.mem_append.mpr (Or.inr (mem_fresh.mpr ⟨hz, hzc⟩))
            · left; exact List.mem_append.mpr (Or.inr h3)
          · right
            intro z hz
            exact List.mem_append.mpr (Or.inl (h2 z hz))
        · left; exact List.mem_append.mpr (Or.inl h)
      · simp only [List.length_append, List.length_cons] at hfuel ⊢
        omega

theorem setList_sub {l : List String} : ∀ x ∈ setList l, x ∈ l :=
  fun _ hx => mem_setList.mp hx

theorem setList_length_le {l : List String} : (setList l).length ≤ l.length :=
  List.Subperm.length_le (nodup_setList.subperm setList_sub)

theorem epsilonClosure_nodup {tr : Table} {S : List String} :
    (epsilonClosure tr S).Nodup := closureLoop_nodup nodup_setList

theorem epsilonClosure_sound {tr : Table} {S : List String} {x : String}
    (h : x ∈ epsilonClosure tr S) : EpsReach tr S x := by
  refine closureLoop_sound ?_ ?_ x h
  · exact fun c hc => .base (mem_setList.mp hc)
  · exact fun c hc => .base (mem_setList.mp hc)

/-- The closure as computed is closed under epsilon moves. -/
theorem epsilonClosure_closed {tr : Table} {S : List String} {x y : String}
    (hx : x ∈ epsilonClosure tr S) (hy : y ∈ epsMoves tr x) :
    y ∈ epsilonClosure tr S := by
  refine closureLoop_closed (U := setList S ++ epsUnivList tr) ?_ nodup_setList ?_ ?_ ?_ ?_
    x hx y hy
  · exact fun s z hz => List.mem_append.mpr (Or.inr (epsMoves_subset_univ hz))
  · exact fun z hz => List.mem_append.mpr (Or.inl hz)
  · exact fun z hz => hz
  · exact fun c hc => Or.inl hc
  · have h1 : (setList S ++ epsUnivList tr).dedup.length ≤
        (setList S).length + (epsUnivList tr).length := by
      have := (List.dedup_sublist (setList S ++ epsUnivList tr)).length_le
      simpa [List.length_append] using this
    have h2 : (setList S).length ≤ S.length := setList_length_le
    omega

theorem epsilonClosure_complete {tr : Table} {S : List String} {x : String}
    (h : EpsReach tr S x) : x ∈ epsilonClosure tr S := by
  induction h with
  | base hx => exact closureLoop_mono (mem_setList.mpr hx)
  | step _ hmv ih => exact epsilonClosure_closed ih hmv

/-- `epsilon_closure` computes exactly epsilon reachability. -/
theorem mem_epsilonClosure {tr : Table} {S : List String} {x : String} :
    x ∈ epsilonClosure tr S ↔ EpsReach tr S x :=
  ⟨epsilonClosure_sound, epsilonClosure_complete⟩

theorem epsReach_mono {tr : Table} {S S' : List String} {x : String}
    (h : ∀ z ∈ S, z ∈ S') : EpsReach tr S x → EpsReach tr S' x := by
  intro hr
  induction hr with
  | base hx => exact .base (h _ hx)
  | step _ hmv ih => exact .step ih hmv

theorem epsilonClosure_congr {tr : Table} {S S' : List String}
    (h : ∀ z, z ∈ S ↔ z ∈ S') :
    ∀ x, x ∈ epsilonClosure tr S ↔ x ∈ epsilonClosure tr S' := by
  intro x
  rw [mem_epsilonClosure, mem_epsilonClosure]
  exact ⟨epsReach_mono (fun z hz => (h z).mp hz), epsReach_mono (fun z hz => (h z).mpr hz)⟩

theorem epsilonClosure_extensive {tr : Table} {S : List String} {x : String}
    (h : x ∈ S) : x ∈ epsilonClosure tr S :=
  epsilonClosure_complete (.base h)

theorem epsReach_flatten {tr : Table} {S : List String} {x : String}
    (h : EpsReach tr (epsilonClosure tr S) x) : x ∈ epsilonClosure tr S := by
  induction h with
  | base hx => exact hx
  | step _ hmv ih => exact epsilonClosure_closed ih hmv

theorem epsilonClosure_idem {tr : Table} {S : List String} {x : String} :
    x ∈ epsilonClosure tr (epsilonClosure tr S) ↔ x ∈ epsilonClosure tr S := by
  constructor
  · intro h
    exact epsReach_flatten (epsilonClosure_sound h)
  · exact epsilonClosure_extensive

theorem epsilonClosure_append {tr : Table} {A B : List String} {x : String} :
    x ∈ epsilonClosure tr (A ++ B) ↔
      x ∈ epsilonClosure tr A ∨ x ∈ epsilonClosure tr B := by
  simp only [mem_epsilonClosure]
  constructor
  · intro h
    induction h with
    | base hx =>
      rcases List.mem_append.mp hx with h | h
      · exact Or.inl (.base h)
      · exact Or.inr (.base h)
    | step _ hmv ih =>
      rcases ih with h | h
      · exact Or.inl (.step h hmv)
      · exact Or.inr (.step h hmv)
  · intro h
    rcases h with h | h
    · exact epsReach_mono (fun z hz => List.mem_append.mpr (Or.inl hz)) h
    · exact epsReach_mono (fun z hz => List.mem_append.mpr (Or.inr hz)) h

theorem epsReach_singleton {tr : Table} {S : List String} {x : String} :
    EpsReach tr S x ↔ ∃ s ∈ S, EpsReach tr [s] x := by
  constructor
  · intro h
    induction h with
    | base hx => exact ⟨_, hx, .base (List.mem_singleton.mpr rfl)⟩
    | step _ hmv ih =>
      rcases ih with ⟨s, hs, hr⟩
      exact ⟨s, hs, .step hr hmv⟩
  · rintro ⟨s, hs, hr⟩
    refine epsReach_mono ?_ hr
    intro z hz
    rw [List.mem_singleton.mp hz]
    exact hs

theorem epsilonClosure_empty {tr : Table} {x : String} :
    x ∉ epsilonClosure tr [] := by
  intro h
  have := epsilonClosure_sound h
  induction this with
  | base hx => exact absurd hx (List.not_mem_nil _)
  | step _ _ ih => exact ih (epsilonClosure_complete (by assumption))

/-- C7: for every transition table and every set of states, `epsilon_closure`
is extensive (the set is contained in its closure) and idempotent (closing a
closure adds nothing), and — the worklist pushing each state at most once —
its result lists each state exactly once (the loop provably empties its
stack on the fuel supplied, which is how the embedding renders termination
despite epsilon cycles). -/
theorem epsilonClosure_extensive_idem_nodup (tr : Table) (S : List String) :
    (∀ x ∈ S, x ∈ epsilonClosure tr S) ∧
    (∀ x, x ∈ epsilonClosure tr (epsilonClosure tr S) ↔ x ∈ epsilonClosure tr S) ∧
    (epsilonClosure tr S).Nodup :=
  ⟨fun _ hx => epsilonClosure_extensive hx, fun _ => epsilonClosure_idem, epsilonClosure_nodup⟩

-- DFA run lemmas.

theorem dfaGo_acc {m : DFAModel} :
    ∀ (w : List String) (q : String) (i : Nat) (acc : List (StepEntry String)),
      dfaGo m q i acc w =
        ⟨(dfaGo m q i [] w).accepted, (dfaGo m q i [] w).reason,
         acc ++ (dfaGo m q i [] w).trace, (dfaGo m q i [] w).final⟩ := by
  intro w
  induction w with
  | nil => intro q i acc; simp [dfaGo]
  | cons a w ih =>
    intro q i acc
    cases hc : m.alphabet.contains a with
    | false =>
      have hc' : a ∉ m.alphabet := contains_eq_false.mp hc
      simp [dfaGo, hc']
    | true =>
      have hc' : a ∈ m.alphabet := contains_iff.mp hc
      cases hl : dTargetOf (dRowOf m.transitions q) a with
      | none => simp [dfaGo, hc', hl]
      | some q' =>
        simp only [dfaGo, hl]
        rw [if_pos (by simpa using hc'), if_pos (by simpa using hc')]
        rw [ih q' (i + 1) (acc ++ [(⟨i + 1, a, q', w⟩ : StepEntry String)]),
            ih q' (i + 1) ([] ++ [(⟨i + 1, a, q', w⟩ : StepEntry String)])]
        simp

theorem dfaGo_complete {m : DFAModel} {u : List String} {q q' : String}
    (h : DfaSteps m q u q') : ∀ (i : Nat) (acc : List (StepEntry String)),
    (dfaGo m q i acc u).accepted = m.finals.contains q' ∧
    (dfaGo m q i acc u).reason = .finished ∧
    (dfaGo m q i acc u).final = q' ∧
    (dfaGo m q i acc u).trace.length = acc.length + u.length := by
  induction h with
  | nil q => intro i acc; simp [dfaGo]
  | @cons q a q1 w q2 hc hl _ ih =>
    intro i acc
    have hc' : a ∈ m.alphabet := contains_iff.mp hc
    simp only [dfaGo, hl]
    rw [if_pos (by simpa using hc')]
    obtain ⟨h1, h2, h3, h4⟩ := ih (i + 1) (acc ++ [⟨i + 1, a, q1, w⟩])
    refine ⟨h1, h2, h3, ?_⟩
    rw [h4]
    simp only [List.length_append, List.length_cons, List.length_nil]
    omega

theorem dfaGo_badSym {m : DFAModel} {u : List String} {q q' : String}
    (h : DfaSteps m q u q') {a : String} (ha : m.alphabet.contains a = false) :
    ∀ (v : List String) (i : Nat) (acc : List (StepEntry String)),
    (dfaGo m q i acc (u ++ a :: v)).accepted = false ∧
    (dfaGo m q i acc (u ++ a :: v)).reason = .badSymbol ∧
    (dfaGo m q i acc (u ++ a :: v)).final = q' ∧
    (dfaGo m q i acc (u ++ a :: v)).trace.length = acc.length + u.length := by
  induction h with
  | nil q =>
    intro v i acc
    have ha' : a ∉ m.alphabet := contains_eq_false.mp ha
    simp [dfaGo, ha']
  | @cons q b q1 w q2 hc hl _ ih =>
    intro v i acc
    have hc' : b ∈ m.alphabet := contains_iff.mp hc
    simp only [List.cons_append, dfaGo, hl, List.append_eq]
    rw [if_pos (by simpa using hc')]
    obtain ⟨h1, h2, h3, h4⟩ := ih v (i + 1) (acc ++ [⟨i + 1, b, q1, w ++ a :: v⟩])
    refine ⟨h1, h2, h3, ?_⟩
    rw [h4]
    simp only [List.length_append, List.length_cons, List.length_nil]
    omega

theorem dfaGo_noTrans {m : DFAModel} {u : List String} {q q' : String}
    (h : DfaSteps m q u q') {a : String} (ha : m.alphabet.contains a = true) :
    ∀ (v : List String) (i : Nat) (acc : List (StepEntry String)),
    dTargetOf (dRowOf m.transitions q') a = none →
    (dfaGo m q i acc (u ++ a :: v)).accepted = false ∧
    (dfaGo m q i acc (u ++ a :: v)).reason = .noTransition ∧
    (dfaGo m q i acc (u ++ a :: v)).final = q' ∧
    (dfaGo m q i acc (u ++ a :: v)).trace.length = acc.length + u.length := by
  induction h with
  | nil q =>
    intro v i acc hl0
    have ha' : a ∈ m.alphabet := contains_iff.mp ha
    simp [dfaGo, ha', hl0]
  | @cons q b q1 w q2 hc hl _ ih =>
    intro v i acc hl0
    have hc' : b ∈ m.alphabet := contains_iff.mp hc
    simp only [List.cons_append, dfaGo, hl, List.append_eq]
    rw [if_pos (by simpa using hc')]
    obtain ⟨h1, h2, h3, h4⟩ := ih v (i + 1) (acc ++ [⟨i + 1, b, q1, w ++ a :: v⟩]) hl0
    refine ⟨h1, h2, h3, ?_⟩
    rw [h4]
    simp only [List.length_append, List.length_cons, List.length_nil]
    omega

theorem dfaGo_content {m : DFAModel} :
    ∀ (w : List String) (q : String) (i k : Nat),
      k < (dfaGo m q i [] w).trace.length →
      ∃ qk ak, w.get? k = some ak ∧ DfaSteps m q (w.take (k + 1)) qk ∧
        (dfaGo m q i [] w).trace.get? k = some ⟨i + k + 1, ak, qk, w.drop (k + 1)⟩ := by
  intro w
  induction w with
  | nil =>
    intro q i k hk
    simp [dfaGo] at hk
  | cons a w ih =>
    intro q i k hk
    cases hc : m.alphabet.contains a with
    | false =>
      have hc' : a ∉ m.alphabet := contains_eq_false.mp hc
      simp [dfaGo, hc'] at hk
    | true =>
      have hc' : a ∈ m.alphabet := contains_iff.mp hc
      cases hl : dTargetOf (dRowOf m.transitions q) a with
      | none => simp [dfaGo, hc', hl] at hk
      | some q' =>
        have htr : (dfaGo m q i [] (a :: w)).trace =
            ⟨i + 1, a, q', w⟩ :: (dfaGo m q' (i + 1) [] w).trace := by
          simp only [dfaGo, hl]
          rw [if_pos (by simpa using hc')]
          simp only [List.nil_append]
          rw [dfaGo_acc w q' (i + 1) ([(⟨i + 1, a, q', w⟩ : StepEntry String)])]
          simp
        rw [htr] at hk ⊢
        cases k with
        | zero =>
          refine ⟨q', a, rfl, ?_, ?_⟩
          · simpa using DfaSteps.cons hc hl (.nil q')
          · simp
        | succ j =>
          simp only [List.length_cons, Nat.succ_lt_succ_iff] at hk
          obtain ⟨qk, ak, hak, hsteps, hentry⟩ := ih q' (i + 1) j hk
          refine ⟨qk, ak, by simpa using hak, ?_, ?_⟩
          · simpa using DfaSteps.cons hc hl hsteps
          · simp only [List.get?_cons_succ]
            rw [hentry]
            simp only [List.drop_succ_cons]
            congr 2
            omega

/-- C6: `DFA.process_word` processes the symbols in order: along a defined
path it moves state by state appending one trace record per step; at the
first symbol outside the alphabet it stops and rejects with reason
"symbol outside alphabet" keeping exactly the records accumulated so far
(one per consumed symbol); at an undefined transition it stops and rejects
with reason "no transition"; and when the word is exhausted it accepts iff
the current state is final.  The last conjunct pins the content of each
trace record: step index, consumed symbol, resulting state, remaining
suffix. -/
theorem dfa_processWord_spec (m : DFAModel) :
    (∀ w q', DfaSteps m m.start w q' →
      (m.processWord w).accepted = m.finals.contains q' ∧
      (m.processWord w).reason = .finished ∧
      (m.processWord w).final = q' ∧
      (m.processWord w).trace.length = w.length) ∧
    (∀ u a v q, DfaSteps m m.start u q → m.alphabet.contains a = false →
      (m.processWord (u ++ a :: v)).accepted = false ∧
      (m.processWord (u ++ a :: v)).reason = .badSymbol ∧
      (m.processWord (u ++ a :: v)).final = q ∧
      (m.processWord (u ++ a :: v)).trace.length = u.length) ∧
    (∀ u a v q, DfaSteps m m.start u q → m.alphabet.contains a = true →
      dTargetOf (dRowOf m.transitions q) a = none →
      (m.processWord (u ++ a :: v)).accepted = false ∧
      (m.processWord (u ++ a :: v)).reason = .noTransition ∧
      (m.processWord (u ++ a :: v)).final = q ∧
      (m.processWord (u ++ a :: v)).trace.length = u.length) ∧
    (∀ w k, k < (m.processWord w).trace.length →
      ∃ qk ak, w.get? k = some ak ∧ DfaSteps m m.start (w.take (k + 1)) qk ∧
        (m.processWord w).trace.get? k = some ⟨k + 1, ak, qk, w.drop (k + 1)⟩) := by
  refine ⟨?_, ?_, ?_, ?_⟩
  · intro w q' h
    simpa [DFAModel.processWord] using dfaGo_complete h 0 []
  · intro u a v q h ha
    simpa [DFAModel.processWord] using dfaGo_badSym h ha v 0 []
  · intro u a v q h ha hl0
    simpa [DFAModel.processWord] using dfaGo_noTrans h ha v 0 [] hl0
  · intro w k hk
    have := dfaGo_content (m := m) w m.start 0 k (by simpa [DFAModel.processWord] using hk)
    simpa [DFAModel.processWord] using this

theorem dfa_processWord_spec_witness :
    (dfaA.processWord ["1", "0"]).accepted = dfaA.finals.contains "B" ∧
    (dfaA.processWord ["1", "0"]).reason = .finished ∧
    (dfaA.processWord ["1", "0"]).final = "B" ∧
    (dfaA.processWord ["1", "0"]).trace.length = ["1", "0"].length :=
  (dfa_processWord_spec dfaA).1 ["1", "0"] "B"
    (@DfaSteps.cons dfaA dfaA.start "1" "B" ["0"] "B" (by decide) (by decide)
      (@DfaSteps.cons dfaA "B" "0" "B" [] "B" (by decide) (by decide) (.nil "B")))

-- Default-absorption lemmas: adding an explicit empty row for a state that
-- has no row changes nothing, because missing rows already default to {}.

theorem rowOf_extend {tr : Table} {s : String}
    (h : tr.find? (fun p => p.1 == s) = none) (q : String) :
    rowOf (tr ++ [(s, [])]) q = rowOf tr q := by
  unfold rowOf
  rw [List.find?_append]
  cases hf : tr.find? (fun p => p.1 == q) with
  | some p => simp
  | none =>
    simp only [Option.none_or]
    cases hq : s == q with
    | true =>
      have : s = q := by simpa using hq
      subst this
      simp [List.find?, h] at hf ⊢
    | false => simp [List.find?, hq]

theorem dRowOf_extend {tr : DTable} {s : String}
    (h : tr.find? (fun p => p.1 == s) = none) (q : String) :
    dRowOf (tr ++ [(s, ([] : DRow))]) q = dRowOf tr q := by
  unfold dRowOf
  rw [List.find?_append]
  cases hf : tr.find? (fun p => p.1 == q) with
  | some p => simp
  | none =>
    simp only [Option.none_or]
    cases hq : s == q with
    | true =>
      have : s = q := by simpa using hq
      subst this
      simp [List.find?, h] at hf ⊢
    | false => simp [List.find?, hq]

theorem stepSet_extend {tr : Table} {s : String}
    (h : tr.find? (fun p => p.1 == s) = none) (S : List String) (a : String) :
    stepSet (tr ++ [(s, [])]) S a = stepSet tr S a := by
  unfold stepSet
  congr 1
  funext x
  rw [rowOf_extend h]

theorem epsUnivList_extend {tr : Table} {s : String} :
    epsUnivList (tr ++ [(s, [])]) = epsUnivList tr := by
  simp [epsUnivList, targetsOf]

theorem epsMoves_extend {tr : Table} {s : String}
    (h : tr.find? (fun p => p.1 == s) = none) (q : String) :
    epsMoves (tr ++ [(s, [])]) q = epsMoves tr q := by
  unfold epsMoves
  rw [rowOf_extend h]

theorem closureLoop_congr {tr tr' : Table}
    (h : ∀ q, epsMoves tr' q = epsMoves tr q) :
    ∀ (fuel : Nat) (closure stack : List String),
      closureLoop tr' fuel closure stack = closureLoop tr fuel closure stack := by
  intro fuel
  induction fuel with
  | zero => intro closure stack; simp [closureLoop]
  | succ f ih =>
    intro closure stack
    cases stack with
    | nil => simp [closureLoop]
    | cons st rest =>
      simp only [closureLoop, h st]
      exact ih _ _

theorem epsilonClosure_extend {tr : Table} {s : String}
    (h : tr.find? (fun p => p.1 == s) = none) (S : List String) :
    epsilonClosure (tr ++ [(s, [])]) S = epsilonClosure tr S := by
  unfold epsilonClosure
  rw [epsUnivList_extend, closureLoop_congr (epsMoves_extend h)]

theorem dfaGo_extend {m : DFAModel} {s : String}
    (h : m.transitions.find? (fun p => p.1 == s) = none) :
    ∀ (w : List String) (q : String) (i : Nat) (acc : List (StepEntry String)),
      dfaGo {m with transitions := m.transitions ++ [(s, ([] : DRow))]} q i acc w
        = dfaGo m q i acc w := by
  intro w
  induction w with
  | nil => intro q i acc; simp [dfaGo]
  | cons a w ih =>
    intro q i acc
    cases hc : m.alphabet.contains a with
    | false =>
      have hc' : a ∉ m.alphabet := contains_eq_false.mp hc
      simp [dfaGo, hc']
    | true =>
      have hc' : a ∈ m.alphabet := contains_iff.mp hc
      have hrow : dTargetOf (dRowOf (m.transitions ++ [(s, ([] : DRow))]) q) a
          = dTargetOf (dRowOf m.transitions q) a := by rw [dRowOf_extend h]
      cases hl : dTargetOf (dRowOf m.transitions q) a with
      | none => simp [dfaGo, hc', hrow, hl]
      | some q' => simp [dfaGo, hc', hrow, hl, ih]

theorem nfaGo_extend {m : NFAModel} {s : String}
    (h : m.transitions.find? (fun p => p.1 == s) = none) :
    ∀ (w : List String) (cur : List String) (i : Nat) (acc : List (StepEntry (List String))),
      nfaGo {m with transitions := m.transitions ++ [(s, [])]} cur i acc w
        = nfaGo m cur i acc w := by
  intro w
  induction w with
  | nil => intro cur i acc; simp [nfaGo]
  | cons a w ih =>
    intro cur i acc
    cases hc : m.alphabet.contains a with
    | false =>
      have hc' : a ∉ m.alphabet := contains_eq_false.mp hc
      simp [nfaGo, hc']
    | true =>
      have hc' : a ∈ m.alphabet := contains_iff.mp hc
      have hstep : stepSet (m.transitions ++ [(s, [])]) cur a = stepSet m.transitions cur a :=
        stepSet_extend h cur a
      simp [nfaGo, hc', hstep, ih]

theorem enfaGo_extend {m : NFAModel} {s : String}
    (h : m.transitions.find? (fun p => p.1 == s) = none) :
    ∀ (w : List String) (cur : List String) (i : Nat) (acc : List (StepEntry (List String))),
      enfaGo {m with transitions := m.transitions ++ [(s, [])]} cur i acc w
        = enfaGo m cur i acc w := by
  intro w
  induction w with
  | nil => intro cur i acc; simp [enfaGo]
  | cons a w ih =>
    intro cur i acc
    cases hc : m.alphabet.contains a with
    | false =>
      have hc' : a ∉ m.alphabet := contains_eq_false.mp hc
      simp [enfaGo, hc']
    | true =>
      have hc' : a ∈ m.alphabet := contains_iff.mp hc
      have hstep : stepSet (m.transitions ++ [(s, [])]) cur a = stepSet m.transitions cur a :=
        stepSet_extend h cur a
      have hcl : epsilonClosure (m.transitions ++ [(s, [])]) (stepSet m.transitions cur a)
          = epsilonClosure m.transitions (stepSet m.transitions cur a) :=
        epsilonClosure_extend h _
      simp [enfaGo, hc', hstep, hcl, ih]

/-- C10: every `process_word` is a total function returning a structured
(accepted, trace, …) result for every model and every word — in the
embedding totality holds by construction — and missing transition rows are
absorbed by the defaulted lookups: materialising the missing row as an
explicit empty row changes no run of any of the three engines. -/
theorem processWord_default_absorption (mD : DFAModel) (mN : NFAModel) (s : String)
    (w : List String) :
    (mD.transitions.find? (fun p => p.1 == s) = none →
      DFAModel.processWord {mD with transitions := mD.transitions ++ [(s, ([] : DRow))]} w
        = mD.processWord w) ∧
    (mN.transitions.find? (fun p => p.1 == s) = none →
      NFAModel.processWord {mN with transitions := mN.transitions ++ [(s, [])]} w
        = mN.processWord w) ∧
    (mN.transitions.find? (fun p => p.1 == s) = none →
      ENFA.processWord {mN with transitions := mN.transitions ++ [(s, [])]} w
        = ENFA.processWord mN w) := by
  refine ⟨?_, ?_, ?_⟩
  · intro h
    unfold DFAModel.processWord
    exact dfaGo_extend h w _ 0 []
  · intro h
    unfold NFAModel.processWord
    exact nfaGo_extend h w _ 0 []
  · intro h
    unfold ENFA.processWord
    rw [enfaGo_extend h]
    simp only
    rw [epsilonClosure_extend h]

theorem processWord_default_absorption_witness :
    DFAModel.processWord {dfaA with transitions := dfaA.transitions ++ [("Z", ([] : DRow))]} ["1"]
      = dfaA.processWord ["1"] :=
  (processWord_default_absorption dfaA nfaB "Z" ["1"]).1 (by decide)

-- Validation lemmas.

theorem startBlock_nil_iff {states : List String} {start : String} :
    ((if states.contains start then [] else [VError.startNotInStates start]) : List VError) = []
      ↔ start ∈ states := by
  cases hcs : states.contains start with
  | true =>
    simp only [hcs, if_true]
    exact ⟨fun _ => contains_iff.mp hcs, fun _ => trivial⟩
  | false =>
    simp only [hcs, Bool.false_eq_true, if_false]
    constructor
    · intro h; exact absurd h (by simp)
    · intro h; exact absurd h (contains_eq_false.mp hcs)

theorem finalsBlock_nil_iff {states finals : List String} :
    ((finals.filter (fun s => !states.contains s)).map VError.finalNotInStates = [])
      ↔ ∀ f ∈ finals, f ∈ states := by
  rw [List.map_eq_nil, List.filter_eq_nil]
  constructor
  · intro h f hf
    have hb := h f hf
    cases hcs : states.contains f with
    | true => exact contains_iff.mp hcs
    | false => rw [hcs] at hb; exact absurd rfl hb
  · intro h f hf
    rw [contains_iff.mpr (h f hf)]
    simp

theorem rowTargets_nil_iff {states : List String} {r : Row} :
    (r.flatMap (fun q => (q.2.filter (fun t => !states.contains t)).map
        VError.targetNotInStates) = [])
      ↔ ∀ q ∈ r, ∀ t ∈ q.2, t ∈ states := by
  rw [List.flatMap_eq_nil_iff]
  constructor
  · intro h q hq t ht
    have hb := h q hq
    rw [List.map_eq_nil, List.filter_eq_nil] at hb
    have := hb t ht
    cases hcs : states.contains t with
    | true => exact contains_iff.mp hcs
    | false => rw [hcs] at this; exact absurd rfl this
  · intro h q hq
    rw [List.map_eq_nil, List.filter_eq_nil]
    intro t ht
    rw [contains_iff.mpr (h q hq t ht)]
    simp

/-- `validate` finds no fatal error exactly when the four structural
invariants hold. -/
theorem validateErrors_eq_nil_iff (states : List String) (tr : Table) (start : String)
    (finals : List String) :
    validateErrors states tr start finals = [] ↔
      (start ∈ states ∧ (∀ f ∈ finals, f ∈ states) ∧
       (∀ p ∈ tr, p.1 ∈ states) ∧ (∀ p ∈ tr, ∀ q ∈ p.2, ∀ t ∈ q.2, t ∈ states)) := by
  unfold validateErrors
  rw [List.append_eq_nil, List.append_eq_nil, startBlock_nil_iff, finalsBlock_nil_iff,
      List.flatMap_eq_nil_iff]
  constructor
  · rintro ⟨⟨h1, h2⟩, h3⟩
    refine ⟨h1, h2, ?_, ?_⟩
    · intro p hp
      have := h3 p hp
      rw [List.append_eq_nil] at this
      exact startBlock_nil_iff.mp (by simpa using this.1)
    · intro p hp
      have := h3 p hp
      rw [List.append_eq_nil] at this
      exact rowTargets_nil_iff.mp this.2
  · rintro ⟨h1, h2, h3, h4⟩
    refine ⟨⟨h1, h2⟩, ?_⟩
    intro p hp
    rw [List.append_eq_nil]
    constructor
    · simpa using startBlock_nil_iff.mpr (h3 p hp)
    · exact rowTargets_nil_iff.mpr (h4 p hp)

theorem mem_errors_start {states : List String} {tr : Table} {start : String}
    {finals : List String} (h : start ∉ states) :
    VError.startNotInStates start ∈ validateErrors states tr start finals := by
  unfold validateErrors
  refine List.mem_append.mpr (Or.inl (List.mem_append.mpr (Or.inl ?_)))
  rw [contains_eq_false.mpr h]
  simp

theorem mem_errors_final {states : List String} {tr : Table} {start : String}
    {finals : List String} {f : String} (hf : f ∈ finals) (h : f ∉ states) :
    VError.finalNotInStates f ∈ validateErrors states tr start finals := by
  unfold validateErrors
  refine List.mem_append.mpr (Or.inl (List.mem_append.mpr (Or.inr ?_)))
  refine List.mem_map.mpr ⟨f, ?_, rfl⟩
  refine List.mem_filter.mpr ⟨hf, ?_⟩
  rw [contains_eq_false.mpr h]
  rfl

theorem mem_errors_source {states : List String} {tr : Table} {start : String}
    {finals : List String} {p : String × Row} (hp : p ∈ tr) (h : p.1 ∉ states) :
    VError.sourceNotInStates p.1 ∈ validateErrors states tr start finals := by
  unfold validateErrors
  refine List.mem_append.mpr (Or.inr ?_)
  refine List.mem_flatMap.mpr ⟨p, hp, List.mem_append.mpr (Or.inl ?_)⟩
  rw [contains_eq_false.mpr h]
  simp

theorem mem_errors_target {states : List String} {tr : Table} {start : String}
    {finals : List String} {p : String × Row} {q : String × List String} {t : String}
    (hp : p ∈ tr) (hq : q ∈ p.2) (ht : t ∈ q.2) (h : t ∉ states) :
    VError.targetNotInStates t ∈ validateErrors states tr start finals := by
  unfold validateErrors
  refine List.mem_append.mpr (Or.inr ?_)
  refine List.mem_flatMap.mpr ⟨p, hp, List.mem_append.mpr (Or.inr ?_)⟩
  refine List.mem_flatMap.mpr ⟨q, hq, ?_⟩
  refine List.mem_map.mpr ⟨t, ?_, rfl⟩
  refine List.mem_filter.mpr ⟨ht, ?_⟩
  rw [contains_eq_false.mpr h]
  rfl

/-- C3 counterexample: the code collects, for each transition row, the row's
source error followed by that row's target errors — not all source errors
first and then all target errors as the claim orders them.  On a concrete
two-row description the produced list differs from the claimed one. -/
theorem construct_order_counterexample :
    construct ["s"] [] [("a", [("x", ["t"])]), ("b", [("y", ["u"])])] "s" []
        = Except.error [VError.sourceNotInStates "a", VError.targetNotInStates "t",
                        VError.sourceNotInStates "b", VError.targetNotInStates "u"] ∧
      [VError.sourceNotInStates "a", VError.targetNotInStates "t",
       VError.sourceNotInStates "b", VError.targetNotInStates "u"] ≠
      [VError.sourceNotInStates "a", VError.sourceNotInStates "b",
       VError.targetNotInStates "t", VError.targetNotInStates "u"] := by
  constructor
  · rfl
  · decide

/-- C3 (amended): when a fatal structural violation is present, construction
fails with the full ordered list of fatal violations — start-state check
first, then the final-states pass, then one pass over the transition table
emitting for each row its source check followed by that row's target checks
(not two separate source/target passes) — all errors gathered rather than
only the first, and no model is produced. -/
theorem construct_fatal (states alphabet : List String) (tr : Table) (start : String)
    (finals : List String) :
    ¬ (start ∈ states ∧ (∀ f ∈ finals, f ∈ states) ∧
       (∀ p ∈ tr, p.1 ∈ states) ∧ (∀ p ∈ tr, ∀ q ∈ p.2, ∀ t ∈ q.2, t ∈ states)) →
    ∃ errs, construct states alphabet tr start finals = Except.error errs ∧ errs ≠ [] ∧
      (start ∉ states → VError.startNotInStates start ∈ errs) ∧
      (∀ f ∈ finals, f ∉ states → VError.finalNotInStates f ∈ errs) ∧
      (∀ p ∈ tr, p.1 ∉ states → VError.sourceNotInStates p.1 ∈ errs) ∧
      (∀ p ∈ tr, ∀ q ∈ p.2, ∀ t ∈ q.2, t ∉ states → VError.targetNotInStates t ∈ errs) ∧
      ∃ E1 E2 E3, errs = E1 ++ E2 ++ E3 ∧
        (∀ e ∈ E1, e = VError.startNotInStates start) ∧
        (∀ e ∈ E2, ∃ x, e = VError.finalNotInStates x) ∧
        (∀ e ∈ E3, (∃ x, e = VError.sourceNotInStates x) ∨
                   (∃ x, e = VError.targetNotInStates x)) := by
  intro hviol
  refine ⟨validateErrors (setList states) tr start (setList finals), ?_, ?_, ?_, ?_, ?_, ?_, ?_⟩
  · unfold construct
    rw [if_neg]
    intro hemp
    obtain ⟨h1, h2, h3, h4⟩ := (validateErrors_eq_nil_iff _ _ _ _).mp (List.isEmpty_iff.mp hemp)
    exact hviol ⟨mem_setList.mp h1,
      fun f hf => mem_setList.mp (h2 f (mem_setList.mpr hf)),
      fun p hp => mem_setList.mp (h3 p hp),
      fun p hp q hq t ht => mem_setList.mp (h4 p hp q hq t ht)⟩
  · intro h0
    obtain ⟨h1, h2, h3, h4⟩ := (validateErrors_eq_nil_iff _ _ _ _).mp h0
    exact hviol ⟨mem_setList.mp h1,
      fun f hf => mem_setList.mp (h2 f (mem_setList.mpr hf)),
      fun p hp => mem_setList.mp (h3 p hp),
      fun p hp q hq t ht => mem_setList.mp (h4 p hp q hq t ht)⟩
  · intro h
    exact mem_errors_start (fun hc => h (mem_setList.mp hc))
  · intro f hf h
    exact mem_errors_final (mem_setList.mpr hf) (fun hc => h (mem_setList.mp hc))
  · intro p hp h
    exact mem_errors_source hp (fun hc => h (mem_setList.mp hc))
  · intro p hp q hq t ht h
    exact mem_errors_target hp hq ht (fun hc => h (mem_setList.mp hc))
  · refine ⟨(if (setList states).contains start then [] else [VError.startNotInStates start]),
      ((setList finals).filter (fun s => !(setList states).contains s)).map
        VError.finalNotInStates,
      tr.flatMap (fun p =>
        (if (setList states).contains p.1 then [] else [VError.sourceNotInStates p.1])
        ++ p.2.flatMap (fun q => (q.2.filter (fun t => !(setList states).contains t)).map
            VError.targetNotInStates)),
      rfl, ?_, ?_, ?_⟩
    · intro e he
      cases hcs : (setList states).contains start with
      | true => rw [hcs] at he; simp at he
      | false =>
        rw [hcs] at he
        simpa using he
    · intro e he
      obtain ⟨x, _, hx⟩ := List.mem_map.mp he
      exact ⟨x, hx.symm⟩
    · intro e he
      obtain ⟨p, _, hin⟩ := List.mem_flatMap.mp he
      rcases List.mem_append.mp hin with h | h
      · left
        cases hcs : (setList states).contains p.1 with
        | true => rw [hcs] at h; simp at h
        | false =>
          rw [hcs] at h
          exact ⟨p.1, by simpa using h⟩
      · right
        obtain ⟨q, _, hq⟩ := List.mem_flatMap.mp h
        obtain ⟨t, _, ht⟩ := List.mem_map.mp hq
        exact ⟨t, ht.symm⟩

theorem construct_fatal_witness :
    ∃ errs, construct ["s"] [] [] "q" [] = Except.error errs ∧ errs ≠ [] ∧
      ("q" ∉ ["s"] → VError.startNotInStates "q" ∈ errs) ∧
      (∀ f ∈ ([] : List String), f ∉ ["s"] → VError.finalNotInStates f ∈ errs) ∧
      (∀ p ∈ ([] : Table), p.1 ∉ ["s"] → VError.sourceNotInStates p.1 ∈ errs) ∧
      (∀ p ∈ ([] : Table), ∀ q ∈ p.2, ∀ t ∈ q.2, t ∉ ["s"] →
        VError.targetNotInStates t ∈ errs) ∧
      ∃ E1 E2 E3, errs = E1 ++ E2 ++ E3 ∧
        (∀ e ∈ E1, e = VError.startNotInStates "q") ∧
        (∀ e ∈ E2, ∃ x, e = VError.finalNotInStates x) ∧
        (∀ e ∈ E3, (∃ x, e = VError.sourceNotInStates x) ∨
                   (∃ x, e = VError.targetNotInStates x)) :=
  construct_fatal ["s"] [] [] "q" [] (by decide)

theorem mem_warn_symbol {states alphabet : List String} {tr : Table}
    {p : String × Row} {q : String × List String} (hp : p ∈ tr) (hq : q ∈ p.2)
    (hne : q.1 ≠ EPSILON) (hna : q.1 ∉ alphabet) :
    VWarn.symbolNotInAlphabet q.1 ∈ validateWarnings states alphabet tr := by
  unfold validateWarnings
  refine List.mem_append.mpr (Or.inl ?_)
  refine List.mem_flatMap.mpr ⟨p, hp, List.mem_flatMap.mpr ⟨q, hq, ?_⟩⟩
  have hcond : (q.1 != EPSILON && !alphabet.contains q.1) = true := by
    rw [Bool.and_eq_true]
    constructor
    · show (!(q.1 == EPSILON)) = true
      rw [beq_eq_false_iff_ne.mpr hne]
      rfl
    · rw [contains_eq_false.mpr hna]
      rfl
  rw [hcond]
  simp

theorem mem_warn_noRow {states alphabet : List String} {tr : Table} {s : String}
    (hs : s ∈ states) (h : tr.find? (fun p => p.1 == s) = none) :
    VWarn.noTransitionsForState s ∈ validateWarnings states alphabet tr := by
  unfold validateWarnings
  refine List.mem_append.mpr (Or.inr ?_)
  refine List.mem_flatMap.mpr ⟨s, hs, ?_⟩
  rw [h]
  simp

theorem mem_warn_missing {states alphabet : List String} {tr : Table} {s a : String}
    (hs : s ∈ states) (ha : a ∈ alphabet) {r : String × Row}
    (hr : tr.find? (fun p => p.1 == s) = some r)
    (h : (rowOf tr s).find? (fun q => q.1 == a) = none) :
    VWarn.missingSymbol s a ∈ validateWarnings states alphabet tr := by
  unfold validateWarnings
  refine List.mem_append.mpr (Or.inr ?_)
  refine List.mem_flatMap.mpr ⟨s, hs, ?_⟩
  rw [hr]
  refine List.mem_flatMap.mpr ⟨a, ha, ?_⟩
  rw [h]
  simp

/-- C9: a structural description violating none of the four fatal invariants
constructs successfully: `construct` returns the model plus the advisory
list as data (advisories are never thrown), and the two advisory kinds —
transition symbols outside the declared alphabet, and per-state coverage
gaps (no row at all, or a missing symbol in a row) — all appear in that
returned list. -/
theorem construct_advisory (states alphabet : List String) (tr : Table) (start : String)
    (finals : List String) :
    (start ∈ states ∧ (∀ f ∈ finals, f ∈ states) ∧ (∀ p ∈ tr, p.1 ∈ states) ∧
     (∀ p ∈ tr, ∀ q ∈ p.2, ∀ t ∈ q.2, t ∈ states)) →
    construct states alphabet tr start finals =
      Except.ok (⟨setList states, setList alphabet, tr, start, setList finals⟩,
        validateWarnings (setList states) (setList alphabet) tr) ∧
    (∀ p ∈ tr, ∀ q ∈ p.2, q.1 ≠ EPSILON → q.1 ∉ alphabet →
      VWarn.symbolNotInAlphabet q.1 ∈ validateWarnings (setList states) (setList alphabet) tr) ∧
    (∀ s ∈ states, tr.find? (fun p => p.1 == s) = none →
      VWarn.noTransitionsForState s ∈ validateWarnings (setList states) (setList alphabet) tr) ∧
    (∀ s ∈ states, ∀ a ∈ alphabet, (∃ r, tr.find? (fun p => p.1 == s) = some r) →
      (rowOf tr s).find? (fun q => q.1 == a) = none →
      VWarn.missingSymbol s a ∈ validateWarnings (setList states) (setList alphabet) tr) := by
  rintro ⟨h1, h2, h3, h4⟩
  refine ⟨?_, ?_, ?_, ?_⟩
  · unfold construct
    rw [if_pos]
    rw [List.isEmpty_iff]
    refine (validateErrors_eq_nil_iff _ _ _ _).mpr ⟨mem_setList.mpr h1, ?_, ?_, ?_⟩
    · intro f hf
      exact mem_setList.mpr (h2 f (mem_setList.mp hf))
    · intro p hp
      exact mem_setList.mpr (h3 p hp)
    · intro p hp q hq t ht
      exact mem_setList.mpr (h4 p hp q hq t ht)
  · intro p hp q hq hne hna
    exact mem_warn_symbol hp hq hne (fun hc => hna (mem_setList.mp hc))
  · intro s hs h
    exact mem_warn_noRow (mem_setList.mpr hs) h
  · rintro s hs a ha ⟨r, hr⟩ h
    exact mem_warn_missing (mem_setList.mpr hs) (mem_setList.mpr ha) hr h

theorem construct_advisory_witness :
    construct ["A"] ["a"] [("A", [("b", ["A"])])] "A" [] =
      Except.ok (⟨setList ["A"], setList ["a"], [("A", [("b", ["A"])])], "A", setList []⟩,
        validateWarnings (setList ["A"]) (setList ["a"]) [("A", [("b", ["A"])])]) ∧
    VWarn.symbolNotInAlphabet "b" ∈
      validateWarnings (setList ["A"]) (setList ["a"]) [("A", [("b", ["A"])])] ∧
    VWarn.missingSymbol "A" "a" ∈
      validateWarnings (setList ["A"]) (setList ["a"]) [("A", [("b", ["A"])])] := by
  have h := construct_advisory ["A"] ["a"] [("A", [("b", ["A"])])] "A" [] (by decide)
  refine ⟨h.1, ?_, ?_⟩
  · exact h.2.1 ("A", [("b", ["A"])]) (by decide) ("b", ["A"]) (by decide) (by decide) (by decide)
  · exact h.2.2.2 "A" (by decide) "a" (by decide) ⟨("A", [("b", ["A"])]), by decide⟩ (by decide)

-- Sorting and row-construction lemmas for `ENFA.to_nfa`.

theorem mem_insSorted {x y : String} {l : List String} :
    x ∈ insSorted y l ↔ x = y ∨ x ∈ l := by
  induction l with
  | nil => simp [insSorted]
  | cons z zs ih =>
    unfold insSorted
    cases hle : strLe y z with
    | true =>
      simp only [hle, if_true, List.mem_cons]
    | false =>
      simp only [hle, Bool.false_eq_true, if_false, List.mem_cons, ih]
      tauto

theorem mem_sortStr {x : String} {l : List String} : x ∈ sortStr l ↔ x ∈ l := by
  induction l with
  | nil => simp [sortStr]
  | cons y ys ih =>
    simp only [sortStr, mem_insSorted, List.mem_cons, ih]

theorem enfaRow_stable {tr : Table} {s a : String} {v : String × List String} :
    ∀ (syms : List String) (row₀ : Row),
      row₀.find? (fun q => q.1 == a) = some v →
      (syms.foldl (enfaRowStep tr s) row₀).find? (fun q => q.1 == a) = some v := by
  intro syms
  induction syms with
  | nil => intro row₀ h; simpa using h
  | cons b syms ih =>
    intro row₀ h
    simp only [List.foldl_cons]
    refine ih _ ?_
    unfold enfaRowStep
    cases he : (enfaTgt tr s b).isEmpty with
    | true => simpa [he] using h
    | false =>
      simp only [he, Bool.false_eq_true, if_false]
      rw [List.find?_append, h]
      rfl

theorem enfaRow_absent {tr : Table} {s a : String} :
    ∀ (syms : List String) (row₀ : Row), a ∉ syms →
      (syms.foldl (enfaRowStep tr s) row₀).find? (fun q => q.1 == a) =
        row₀.find? (fun q => q.1 == a) := by
  intro syms
  induction syms with
  | nil => intro row₀ _; rfl
  | cons b syms ih =>
    intro row₀ hna
    have hab : a ≠ b := fun h => hna (h ▸ List.mem_cons_self b syms)
    simp only [List.foldl_cons]
    rw [ih _ (fun h => hna (List.mem_cons_of_mem _ h))]
    unfold enfaRowStep
    cases he : (enfaTgt tr s b).isEmpty with
    | true => simp [he]
    | false =>
      simp only [he, Bool.false_eq_true, if_false]
      rw [List.find?_append]
      have : ([(b, sortStr (enfaTgt tr s b))].find? (fun q => q.1 == a)) = none := by
        simp [List.find?, beq_eq_false_iff_ne.mpr (Ne.symm hab)]
      cases hf : row₀.find? (fun q => q.1 == a) with
      | some v => rfl
      | none => simp [hf, this]

theorem enfaRow_found {tr : Table} {s a : String} :
    ∀ (syms : List String) (row₀ : Row), a ∈ syms →
      row₀.find? (fun q => q.1 == a) = none →
      (syms.foldl (enfaRowStep tr s) row₀).find? (fun q => q.1 == a) =
        (if enfaTgt tr s a = [] then none else some (a, sortStr (enfaTgt tr s a))) := by
  intro syms
  induction syms with
  | nil => intro row₀ h _; exact absurd h (List.not_mem_nil a)
  | cons b syms ih =>
    intro row₀ hmem h0
    simp only [List.foldl_cons]
    by_cases hab : a = b
    · subst hab
      cases he : (enfaTgt tr s a).isEmpty with
      | true =>
        have hnil : enfaTgt tr s a = [] := List.isEmpty_iff.mp he
        rw [show enfaRowStep tr s row₀ a = row₀ from by simp [enfaRowStep, he]]
        rw [if_pos hnil]
        by_cases hin : a ∈ syms
        · rw [ih _ hin h0, if_pos hnil]
        · rw [enfaRow_absent _ _ hin, h0]
      | false =>
        have hnil : ¬ enfaTgt tr s a = [] := by
          intro hc
          rw [hc] at he
          simp at he
        rw [show enfaRowStep tr s row₀ a = row₀ ++ [(a, sortStr (enfaTgt tr s a))] from by
          simp [enfaRowStep, he]]
        rw [if_neg hnil]
        refine enfaRow_stable _ _ ?_
        rw [List.find?_append, h0]
        simp [List.find?]
    · have hin : a ∈ syms := by
        rcases List.mem_cons.mp hmem with h | h
        · exact absurd h hab
        · exact h
      refine Eq.trans (ih _ hin ?_) rfl
      unfold enfaRowStep
      cases he : (enfaTgt tr s b).isEmpty with
      | true => simpa [he] using h0
      | false =>
        simp only [he, Bool.false_eq_true, if_false]
        rw [List.find?_append, h0]
        simp [List.find?, beq_eq_false_iff_ne.mpr (fun h => hab h.symm)]

theorem enfaRow_find {m : NFAModel} {s a : String} (ha : a ∈ m.alphabet) :
    (enfaRow m s).find? (fun q => q.1 == a) =
      (if enfaTgt m.transitions s a = [] then none
       else some (a, sortStr (enfaTgt m.transitions s a))) :=
  enfaRow_found m.alphabet [] ha rfl

theorem enfaRow_keys {tr : Table} {s : String} :
    ∀ (syms : List String) (row₀ : Row) (q : String × List String),
      q ∈ syms.foldl (enfaRowStep tr s) row₀ → q ∈ row₀ ∨ q.1 ∈ syms := by
  intro syms
  induction syms with
  | nil => intro row₀ q h; exact Or.inl (by simpa using h)
  | cons b syms ih =>
    intro row₀ q h
    simp only [List.foldl_cons] at h
    rcases ih _ q h with h2 | h2
    · unfold enfaRowStep at h2
      cases he : (enfaTgt tr s b).isEmpty with
      | true =>
        rw [he] at h2
        simp only [if_true] at h2
        exact Or.inl h2
      | false =>
        rw [he] at h2
        simp only [Bool.false_eq_true, if_false] at h2
        rcases List.mem_append.mp h2 with h3 | h3
        · exact Or.inl h3
        · right
          have : q = (b, sortStr (enfaTgt tr s b)) := by simpa using h3
          rw [this]
          exact List.mem_cons_self b syms
    · exact Or.inr (List.mem_cons_of_mem _ h2)

theorem rowOf_map_self {l : List String} {f : String → Row} {s : String} :
    rowOf (l.map (fun x => (x, f x))) s = if s ∈ l then f s else [] := by
  induction l with
  | nil => simp [rowOf]
  | cons y ys ih =>
    unfold rowOf
    simp only [List.map_cons, List.find?]
    cases hb : y == s with
    | true =>
      have : y = s := by simpa using hb
      subst this
      simp
    | false =>
      have hne : y ≠ s := by simpa using hb
      unfold rowOf at ih
      rw [show (if s ∈ y :: ys then f s else []) = if s ∈ ys then f s else [] from by
        simp [List.mem_cons, (Ne.symm hne)]]
      exact ih

theorem toNFA_rowOf {m : NFAModel} {s : String} (hs : s ∈ m.states) :
    rowOf (ENFA.toNFA m).transitions s = enfaRow m s := by
  show rowOf (m.states.map (fun x => (x, enfaRow m x))) s = enfaRow m s
  rw [rowOf_map_self, if_pos hs]

theorem toNFA_targets_mem {m : NFAModel} {s a : String} (hs : s ∈ m.states)
    (ha : a ∈ m.alphabet) (x : String) :
    x ∈ targetsOf (rowOf (ENFA.toNFA m).transitions s) a ↔
      x ∈ enfaTgt m.transitions s a := by
  rw [toNFA_rowOf hs]
  unfold targetsOf
  rw [enfaRow_find ha]
  by_cases hnil : enfaTgt m.transitions s a = []
  · rw [if_pos hnil, hnil]
    simp
  · rw [if_neg hnil]
    simpa using mem_sortStr

/-- C5: `ENFA.to_nfa` keeps the state set, alphabet and start state; when
the alphabet does not contain the reserved epsilon marker (the data-model
invariant) no row of the produced table has an epsilon key; a state is final
in the result iff its epsilon closure meets the original finals, computed
for every state; and each (state, alphabet symbol) entry holds exactly
epsilonClosure(move(epsilonClosure{s}, a)) — stored, sorted, only when that
set is non-empty. -/
theorem toNFA_spec (m : NFAModel) :
    (ENFA.toNFA m).states = m.states ∧
    (ENFA.toNFA m).alphabet = m.alphabet ∧
    (ENFA.toNFA m).start = m.start ∧
    (EPSILON ∉ m.alphabet →
      ∀ p ∈ (ENFA.toNFA m).transitions, p.2.find? (fun q => q.1 == EPSILON) = none) ∧
    (∀ s ∈ m.states, (s ∈ (ENFA.toNFA m).finals ↔
      ∃ x, x ∈ epsilonClosure m.transitions [s] ∧ x ∈ m.finals)) ∧
    (∀ s ∈ m.states, ∀ a ∈ m.alphabet,
      (rowOf (ENFA.toNFA m).transitions s).find? (fun q => q.1 == a) =
        (if enfaTgt m.transitions s a = [] then none
         else some (a, sortStr (enfaTgt m.transitions s a))) ∧
      (∀ x, x ∈ targetsOf (rowOf (ENFA.toNFA m).transitions s) a ↔
        x ∈ enfaTgt m.transitions s a)) := by
  refine ⟨rfl, rfl, rfl, ?_, ?_, ?_⟩
  · intro heps p hp
    obtain ⟨s, _, rfl⟩ := List.mem_map.mp hp
    cases hf : (enfaRow m s).find? (fun q => q.1 == EPSILON) with
    | none => rfl
    | some v =>
      have hv := List.mem_of_find?_eq_some hf
      have hp := List.find?_some hf
      have hkey : v.1 = EPSILON := by simpa using hp
      rcases enfaRow_keys m.alphabet [] v hv with h | h
      · exact absurd h (List.not_mem_nil v)
      · exact absurd (hkey ▸ h) heps
  · intro s hs
    show s ∈ m.states.filter _ ↔ _
    rw [List.mem_filter]
    constructor
    · rintro ⟨-, hint⟩
      obtain ⟨x, hx1, hx2⟩ := (inter_iff _ _).mp hint
      exact ⟨x, hx2, hx1⟩
    · rintro ⟨x, hx1, hx2⟩
      exact ⟨hs, (inter_iff _ _).mpr ⟨x, hx2, hx1⟩⟩
  · intro s hs a ha
    refine ⟨?_, toNFA_targets_mem hs ha⟩
    rw [toNFA_rowOf hs]
    exact enfaRow_find ha

theorem toNFA_spec_witness :
    (∀ p ∈ (ENFA.toNFA enfaC).transitions, p.2.find? (fun q => q.1 == EPSILON) = none) ∧
    ((rowOf (ENFA.toNFA enfaC).transitions "p").find? (fun q => q.1 == "a") =
      (if enfaTgt enfaC.transitions "p" "a" = [] then none
       else some ("a", sortStr (enfaTgt enfaC.transitions "p" "a")))) ∧
    ("p" ∈ (ENFA.toNFA enfaC).finals ↔
      ∃ x, x ∈ epsilonClosure enfaC.transitions ["p"] ∧ x ∈ enfaC.finals) :=
  ⟨(toNFA_spec enfaC).2.2.2.1 (by decide),
   ((toNFA_spec enfaC).2.2.2.2.2 "p" (by decide) "a" (by decide)).1,
   (toNFA_spec enfaC).2.2.2.2.1 "p" (by decide)⟩

-- Lemmas for the ε-NFA / eliminated-NFA run equivalence.

theorem mem_closure_decomp {tr : Table} {S : List String} {x : String} :
    x ∈ epsilonClosure tr S ↔ ∃ s ∈ S, x ∈ epsilonClosure tr [s] := by
  rw [mem_epsilonClosure, epsReach_singleton]
  constructor
  · rintro ⟨s, hs, hr⟩
    exact ⟨s, hs, mem_epsilonClosure.mpr hr⟩
  · rintro ⟨s, hs, hr⟩
    exact ⟨s, hs, mem_epsilonClosure.mp hr⟩

theorem closure_singleton_subset {tr : Table} {N : List String} {s : String}
    (hs : s ∈ N) {y : String} (hy : y ∈ epsilonClosure tr [s]) :
    y ∈ epsilonClosure tr N :=
  mem_closure_decomp.mpr ⟨s, hs, hy⟩

theorem step_closure_decomp {tr : Table} {N : List String} {a x : String} :
    x ∈ epsilonClosure tr (stepSet tr (epsilonClosure tr N) a) ↔
      ∃ s ∈ N, x ∈ epsilonClosure tr (stepSet tr (epsilonClosure tr [s]) a) := by
  constructor
  · intro h
    rw [mem_epsilonClosure] at h
    induction h with
    | base hy =>
      obtain ⟨z, hz, hty⟩ := stepSet_mem.mp hy
      obtain ⟨s, hs, hzs⟩ := mem_closure_decomp.mp hz
      exact ⟨s, hs, epsilonClosure_extensive (stepSet_mem.mpr ⟨z, hzs, hty⟩)⟩
    | step _ hmv ih =>
      obtain ⟨s, hs, hx⟩ := ih
      exact ⟨s, hs, epsilonClosure_closed hx hmv⟩
  · rintro ⟨s, hs, hx⟩
    rw [mem_epsilonClosure] at hx ⊢
    refine epsReach_mono ?_ hx
    intro z hz
    obtain ⟨y, hy, hty⟩ := stepSet_mem.mp hz
    exact stepSet_mem.mpr ⟨y, closure_singleton_subset hs hy, hty⟩

theorem rowOf_eq_nil_of_not_mem {tr : Table} {states : List String} {s : String}
    (hsrc : ∀ p ∈ tr, p.1 ∈ states) (hs : s ∉ states) : rowOf tr s = [] := by
  unfold rowOf
  cases hf : tr.find? (fun p => p.1 == s) with
  | none => rfl
  | some p =>
    have hp := List.mem_of_find?_eq_some hf
    have hkey : p.1 = s := by simpa using List.find?_some hf
    exact absurd (hkey ▸ hsrc p hp) hs

theorem closure_singleton_of_nil_row {tr : Table} {s : String}
    (hrow : rowOf tr s = []) {x : String} : x ∈ epsilonClosure tr [s] ↔ x = s := by
  constructor
  · intro h
    have hr := epsilonClosure_sound h
    induction hr with
    | base hx => simpa using hx
    | step _ hmv ih =>
      have hx := ih (epsilonClosure_complete (by assumption))
      subst hx
      rw [show epsMoves tr _ = [] from by simp [epsMoves, hrow, targetsOf]] at hmv
      exact absurd hmv (List.not_mem_nil _)
  · rintro rfl
    exact epsilonClosure_extensive (List.mem_singleton.mpr rfl)

/-- Membership in one step of the eliminated NFA equals membership in the
closure-of-move step of the ε-NFA, given that transition sources lie in the
state set. -/
theorem toNFA_step_mem {m : NFAModel} (hsrc : ∀ p ∈ m.transitions, p.1 ∈ m.states)
    {N : List String} {a : String} (ha : a ∈ m.alphabet) {x : String} :
    x ∈ stepSet (ENFA.toNFA m).transitions N a ↔
      ∃ s ∈ N, x ∈ enfaTgt m.transitions s a := by
  rw [stepSet_mem]
  constructor
  · rintro ⟨s, hs, hx⟩
    by_cases hst : s ∈ m.states
    · exact ⟨s, hs, (toNFA_targets_mem hst ha x).mp hx⟩
    · rw [show rowOf (ENFA.toNFA m).transitions s = [] from by
        show rowOf (m.states.map (fun x => (x, enfaRow m x))) s = []
        rw [rowOf_map_self, if_neg hst]] at hx
      exact absurd hx (by simp [targetsOf])
  · rintro ⟨s, hs, hx⟩
    by_cases hst : s ∈ m.states
    · exact ⟨s, hs, (toNFA_targets_mem hst ha x).mpr hx⟩
    · exfalso
      have hrow : rowOf m.transitions s = [] := rowOf_eq_nil_of_not_mem hsrc hst
      have : stepSet m.transitions (epsilonClosure m.transitions [s]) a = [] := by
        rw [List.eq_nil_iff_forall_not_mem]
        intro z hz
        obtain ⟨y, hy, hty⟩ := stepSet_mem.mp hz
        rw [closure_singleton_of_nil_row hrow] at hy
        subst hy
        rw [hrow] at hty
        exact absurd hty (by simpa [targetsOf] using List.not_mem_nil z)
      unfold enfaTgt at hx
      rw [this] at hx
      exact epsilonClosure_empty hx

/-- Acceptance of the eliminated NFA's configuration equals acceptance of
its epsilon closure in the ε-NFA. -/
theorem toNFA_accept_mem {m : NFAModel} (hsrc : ∀ p ∈ m.transitions, p.1 ∈ m.states)
    (hfin : ∀ f ∈ m.finals, f ∈ m.states) {N E : List String}
    (hE : ∀ x, x ∈ E ↔ x ∈ epsilonClosure m.transitions N) :
    inter (ENFA.toNFA m).finals N = inter m.finals E := by
  rw [Bool.eq_iff_iff, inter_iff, inter_iff]
  constructor
  · rintro ⟨s, hsf, hsN⟩
    show ∃ x, x ∈ m.finals ∧ x ∈ E
    have hsf2 : s ∈ m.states.filter
        (fun s => inter m.finals (epsilonClosure m.transitions [s])) := hsf
    obtain ⟨hst, hint⟩ := List.mem_filter.mp hsf2
    obtain ⟨x, hx1, hx2⟩ := (inter_iff _ _).mp hint
    exact ⟨x, hx1, (hE x).mpr (closure_singleton_subset hsN hx2)⟩
  · rintro ⟨x, hx1, hx2⟩
    have hx3 := (hE x).mp hx2
    obtain ⟨s, hsN, hxs⟩ := mem_closure_decomp.mp hx3
    have hst : s ∈ m.states := by
      by_contra hst
      have hrow := rowOf_eq_nil_of_not_mem hsrc hst
      have := (closure_singleton_of_nil_row hrow).mp hxs
      subst this
      exact hst (hfin x hx1)
    refine ⟨s, ?_, hsN⟩
    show s ∈ m.states.filter _
    exact List.mem_filter.mpr ⟨hst, (inter_iff _ _).mpr ⟨x, hx1, hxs⟩⟩

theorem enfa_nfa_go_equiv {m : NFAModel} (hsrc : ∀ p ∈ m.transitions, p.1 ∈ m.states)
    (hfin : ∀ f ∈ m.finals, f ∈ m.states) :
    ∀ (w N E : List String) (i i' : Nat) (acc acc' : List (StepEntry (List String))),
      (∀ x, x ∈ E ↔ x ∈ epsilonClosure m.transitions N) →
      (nfaGo (ENFA.toNFA m) N i acc w).accepted = (enfaGo m E i' acc' w).accepted := by
  intro w
  induction w with
  | nil =>
    intro N E i i' acc acc' hE
    simp only [nfaGo, enfaGo]
    exact toNFA_accept_mem hsrc hfin hE
  | cons a w ih =>
    intro N E i i' acc acc' hE
    have halph : (ENFA.toNFA m).alphabet = m.alphabet := rfl
    cases hc : m.alphabet.contains a with
    | false =>
      have hc' : a ∉ m.alphabet := contains_eq_false.mp hc
      simp [nfaGo, enfaGo, halph, hc']
    | true =>
      have hc' : a ∈ m.alphabet := contains_iff.mp hc
      have hNE' : ∀ x, x ∈ stepSet (ENFA.toNFA m).transitions N a ↔
          x ∈ epsilonClosure m.transitions (stepSet m.transitions E a) := by
        intro x
        rw [toNFA_step_mem hsrc hc']
        simp only [enfaTgt]
        rw [← step_closure_decomp]
        exact epsilonClosure_congr (fun z => (stepSet_congr hE z).symm) x
      have hempty : (stepSet (ENFA.toNFA m).transitions N a).isEmpty =
          (epsilonClosure m.transitions (stepSet m.transitions E a)).isEmpty := by
        rw [Bool.eq_iff_iff, List.isEmpty_iff, List.isEmpty_iff,
          List.eq_nil_iff_forall_not_mem, List.eq_nil_iff_forall_not_mem]
        constructor
        · intro h x hx
          exact h x ((hNE' x).mpr hx)
        · intro h x hx
          exact h x ((hNE' x).mp hx)
      cases hne : (stepSet (ENFA.toNFA m).transitions N a).isEmpty with
      | true =>
        have he' := hempty.symm.trans hne
        simp [nfaGo, enfaGo, halph, hc', hne, he']
      | false =>
        have he' := hempty.symm.trans hne
        have hE' : ∀ x, x ∈ epsilonClosure m.transitions (stepSet m.transitions E a) ↔
            x ∈ epsilonClosure m.transitions (stepSet (ENFA.toNFA m).transitions N a) :=
          fun x => epsilonClosure_idem.symm.trans
            (epsilonClosure_congr (fun z => (hNE' z).symm) x)
        simp only [nfaGo, enfaGo, halph, hc, hne, he', eq_self_iff_true, if_true,
          Bool.false_eq_true, if_false]
        exact ih _ _ _ _ _ _ hE'

/-- C2: for every ε-NFA whose transition sources and final states lie in its
state set (as construction without fatal violations guarantees) and every
word, `ENFA.process_word` and `process_word` on the NFA produced by
`ENFA.to_nfa` return the same accepted boolean. -/
theorem enfa_toNFA_equiv (m : NFAModel)
    (hval : validateErrors m.states m.transitions m.start m.finals = []) :
    ∀ w : List String,
      (ENFA.processWord m w).accepted = (NFAModel.processWord (ENFA.toNFA m) w).accepted := by
  intro w
  obtain ⟨-, hfin, hsrc, -⟩ := (validateErrors_eq_nil_iff _ _ _ _).mp hval
  unfold ENFA.processWord NFAModel.processWord
  refine (enfa_nfa_go_equiv hsrc hfin w [(ENFA.toNFA m).start]
    (epsilonClosure m.transitions [m.start]) 0 0 [] [] ?_).symm
  intro x
  rfl

theorem enfa_toNFA_equiv_witness :
    (ENFA.processWord enfaC ["a"]).accepted =
      (NFAModel.processWord (ENFA.toNFA enfaC) ["a"]).accepted :=
  enfa_toNFA_equiv enfaC (by decide) ["a"]

-- Decimal name lemmas: "Q0", "Q1", … are pairwise distinct.

theorem digitsAux_fuel : ∀ n f f', n < f → n < f' → digitsAux f n = digitsAux f' n := by
  intro n
  induction n using Nat.strong_induction_on with
  | _ n ih =>
    intro f f' hf hf'
    match f, hf with
    | f1 + 1, _ =>
      match f', hf' with
      | f2 + 1, _ =>
        by_cases h10 : n < 10
        · simp [digitsAux, h10]
        · simp only [digitsAux, h10, if_false]
          have hlt : n / 10 < n := Nat.div_lt_self (by omega) (by omega)
          rw [ih (n / 10) hlt f1 f2 (by omega) (by omega)]

theorem digitsAux_ne_nil {f n : Nat} (h : n < f) : digitsAux f n ≠ [] := by
  match f, h with
  | f1 + 1, _ =>
    by_cases h10 : n < 10
    · simp [digitsAux, h10]
    · simp only [digitsAux, h10, if_false]
      simp

theorem digitChar_inj : ∀ a < 10, ∀ b < 10, Nat.digitChar a = Nat.digitChar b → a = b := by
  decide

theorem digitsAux_inj : ∀ n m : Nat, digitsAux (n + 1) n = digitsAux (m + 1) m → n = m := by
  intro n
  induction n using Nat.strong_induction_on with
  | _ n ih =>
    intro m h
    by_cases hn : n < 10
    · by_cases hm : m < 10
      · simp only [digitsAux, hn, hm, if_true] at h
        exact digitChar_inj n hn m hm (by simpa using h)
      · exfalso
        simp only [digitsAux, hn, hm, if_true, if_false] at h
        have hne : digitsAux m (m / 10) ≠ [] :=
          digitsAux_ne_nil (Nat.div_lt_self (by omega) (by omega))
        have hlen := congrArg List.length h
        simp only [List.length_append, List.length_cons, List.length_nil] at hlen
        exact hne (List.length_eq_zero.mp (by omega))
    · by_cases hm : m < 10
      · exfalso
        simp only [digitsAux, hn, hm, if_true, if_false] at h
        have hne : digitsAux n (n / 10) ≠ [] :=
          digitsAux_ne_nil (Nat.div_lt_self (by omega) (by omega))
        have hlen := congrArg List.length h
        simp only [List.length_append, List.length_cons, List.length_nil] at hlen
        exact hne (List.length_eq_zero.mp (by omega))
      · simp only [digitsAux, hn, hm, if_false] at h
        obtain ⟨hpre, hlast⟩ := List.append_inj' h (by simp)
        have hmod : n % 10 = m % 10 := by
          refine digitChar_inj _ (Nat.mod_lt n (by omega)) _ (Nat.mod_lt m (by omega)) ?_
          simpa using hlast
        have hdiv : n / 10 = m / 10 := by
          refine ih (n / 10) (Nat.div_lt_self (by omega) (by omega)) (m / 10) ?_
          have e1 : digitsAux n (n / 10) = digitsAux ((n / 10) + 1) (n / 10) :=
            digitsAux_fuel (n / 10) n ((n / 10) + 1)
              (Nat.div_lt_self (by omega) (by omega)) (by omega)
          have e2 : digitsAux m (m / 10) = digitsAux ((m / 10) + 1) (m / 10) :=
            digitsAux_fuel (m / 10) m ((m / 10) + 1)
              (Nat.div_lt_self (by omega) (by omega)) (by omega)
          exact e1.symm.trans (hpre.trans e2)
        omega

theorem natRepr_inj {n m : Nat} (h : natRepr n = natRepr m) : n = m := by
  unfold natRepr at h
  have : digitsAux (n + 1) n = digitsAux (m + 1) m := congrArg String.data h
  exact digitsAux_inj n m this

theorem mkName_inj {n m : Nat} (h : mkName n = mkName m) : n = m := by
  unfold mkName at h
  have hd := congrArg String.data h
  simp only [String.data_append] at hd
  have : (natRepr n).data = (natRepr m).data := List.append_cancel_left hd
  exact natRepr_inj (String.ext this)

-- Frozenset-key lemmas.

theorem setEqB_iff {A B : List String} : setEqB A B = true ↔ ∀ x, x ∈ A ↔ x ∈ B := by
  unfold setEqB
  rw [Bool.and_eq_true, List.all_eq_true, List.all_eq_true]
  constructor
  · rintro ⟨h1, h2⟩ x
    constructor
    · intro hx
      exact contains_iff.mp (h1 x hx)
    · intro hx
      exact contains_iff.mp (h2 x hx)
  · intro h
    constructor
    · intro x hx
      exact contains_iff.mpr ((h x).mp hx)
    · intro x hx
      exact contains_iff.mpr ((h x).mpr hx)

theorem setEqB_refl {A : List String} : setEqB A A = true :=
  setEqB_iff.mpr (fun _ => Iff.rfl)

theorem setEqB_toFinset {A B : List String} : setEqB A B = true ↔ A.toFinset = B.toFinset := by
  rw [setEqB_iff, Finset.ext_iff]
  constructor
  · intro h x
    rw [List.mem_toFinset, List.mem_toFinset]
    exact h x
  · intro h x
    have := h x
    rw [List.mem_toFinset, List.mem_toFinset] at this
    exact this

theorem memKey_iff {ks : List (List String)} {T : List String} :
    memKey ks T = true ↔ ∃ k ∈ ks, setEqB k T = true := by
  unfold memKey
  rw [List.any_eq_true]

theorem memKey_append_left {ks ext : List (List String)} {T : List String}
    (h : memKey ks T = true) : memKey (ks ++ ext) T = true := by
  rw [memKey_iff] at h ⊢
  obtain ⟨k, hk, he⟩ := h
  exact ⟨k, List.mem_append.mpr (Or.inl hk), he⟩

theorem find?_congr_pred {α : Type} {p q : α → Bool} :
    ∀ {l : List α}, (∀ x ∈ l, p x = q x) → l.find? p = l.find? q := by
  intro l
  induction l with
  | nil => intro _; rfl
  | cons a l ih =>
    intro h
    simp only [List.find?]
    rw [h a (List.mem_cons_self a l)]
    cases q a with
    | true => rfl
    | false => exact ih (fun x hx => h x (List.mem_cons_of_mem _ hx))

theorem setEqB_congr_right {k T T' : List String} (h : ∀ x, x ∈ T ↔ x ∈ T') :
    setEqB k T = setEqB k T' := by
  rw [Bool.eq_iff_iff, setEqB_iff, setEqB_iff]
  constructor
  · intro h2 x
    exact (h2 x).trans (h x)
  · intro h2 x
    exact (h2 x).trans (h x).symm

theorem findName_congr {names : List (List String × String)} {T T' : List String}
    (h : ∀ x, x ∈ T ↔ x ∈ T') : findName names T = findName names T' := by
  unfold findName
  rw [find?_congr_pred (fun p _ => setEqB_congr_right h)]

theorem findName_stable {names ext : List (List String × String)} {T : List String}
    (h : memKey (names.map (·.1)) T = true) :
    findName (names ++ ext) T = findName names T := by
  obtain ⟨k, hk, he⟩ := memKey_iff.mp h
  obtain ⟨v, hv, hfst⟩ := List.mem_map.mp hk
  have hsome : (names.find? (fun p => setEqB p.1 T)).isSome = true :=
    List.find?_isSome.mpr ⟨v, hv, by rw [hfst]; exact he⟩
  unfold findName
  rw [List.find?_append]
  cases hf : names.find? (fun p => setEqB p.1 T) with
  | none => rw [hf] at hsome; simp at hsome
  | some w => rfl

theorem findName_of_mem_distinct :
    ∀ {names : List (List String × String)} {K : List String} {v : String},
      (K, v) ∈ names → ((names.map (·.1)).map List.toFinset).Nodup →
      findName names K = v := by
  intro names
  induction names with
  | nil => intro K v h _; exact absurd h (List.not_mem_nil _)
  | cons p names ih =>
    intro K v hmem hnd
    simp only [List.map_cons, List.nodup_cons] at hnd
    unfold findName
    simp only [List.find?]
    cases he : setEqB p.1 K with
    | true =>
      rcases List.mem_cons.mp hmem with h | h
      · rw [← h]
        rfl
      · exfalso
        have hKin : K.toFinset ∈ (names.map (·.1)).map List.toFinset :=
          List.mem_map.mpr ⟨K, List.mem_map.mpr ⟨(K, v), h, rfl⟩, rfl⟩
        have : p.1.toFinset = K.toFinset := setEqB_toFinset.mp he
        exact hnd.1 (this ▸ hKin)
    | false =>
      rcases List.mem_cons.mp hmem with h | h
      · exfalso
        rw [← h] at he
        rw [setEqB_refl] at he
        exact absurd he (by decide)
      · exact ih h hnd.2

theorem stepSet_sub_univ {nfa : NFAModel} {S : List String} {a x : String}
    (h : x ∈ stepSet nfa.transitions S a) : x ∈ subsetUniv nfa := by
  obtain ⟨s, _, hx⟩ := stepSet_mem.mp h
  unfold targetsOf rowOf at hx
  cases hf : nfa.transitions.find? (fun p => p.1 == s) with
  | none => rw [hf] at hx; exact absurd hx (by simp)
  | some p =>
    rw [hf] at hx
    simp only [Option.map_some', Option.getD_some] at hx
    cases hg : p.2.find? (fun q => q.1 == a) with
    | none => rw [hg] at hx; exact absurd hx (by simp)
    | some q =>
      rw [hg] at hx
      simp only [Option.map_some', Option.getD_some] at hx
      unfold subsetUniv
      refine List.mem_cons_of_mem _ ?_
      exact List.mem_flatMap.mpr ⟨p, List.mem_of_find?_eq_some hf,
        List.mem_flatMap.mpr ⟨q, List.mem_of_find?_eq_some hg, hx⟩⟩

theorem processed_card_le {nfa : NFAModel} {b : BuildSt} (hsync : SyncInv nfa b) :
    b.processed.length ≤ 2 ^ (subsetUniv nfa).length := by
  obtain ⟨-, -, hnd, huniv, -⟩ := hsync
  have h1 : b.processed.length = (b.processed.map List.toFinset).length := by
    rw [List.length_map]
  have h2 : (b.processed.map List.toFinset).length =
      (b.processed.map List.toFinset).toFinset.card :=
    (List.toFinset_card_of_nodup hnd).symm
  have h3 : (b.processed.map List.toFinset).toFinset ⊆
      (subsetUniv nfa).toFinset.powerset := by
    intro f hf
    rw [List.mem_toFinset] at hf
    obtain ⟨k, hk, rfl⟩ := List.mem_map.mp hf
    rw [Finset.mem_powerset]
    intro x hx
    rw [List.mem_toFinset] at hx
    rw [List.mem_toFinset]
    exact huniv k hk x hx
  have h4 := Finset.card_le_card h3
  rw [Finset.card_powerset] at h4
  have h5 : 2 ^ (subsetUniv nfa).toFinset.card ≤ 2 ^ (subsetUniv nfa).length :=
    Nat.pow_le_pow_right (by omega) (List.toFinset_card_le _)
  omega

theorem isEmpty_false_ne_nil {l : List String} (h : l.isEmpty = false) : l ≠ [] := by
  intro hnil
  rw [hnil] at h
  simp at h

theorem procSym_fold {nfa : NFAModel} {S : List String} :
    ∀ (syms : List String) (b : BuildSt) (row : DRow) (b' : BuildSt) (row' : DRow),
      syms.foldl (procSym nfa.transitions S) (b, row) = (b', row') →
      SyncInv nfa b →
      ∃ ext : List (List String),
        b'.processed = b.processed ++ ext ∧
        b'.queue = b.queue ++ ext ∧
        b'.rows = b.rows ∧
        b'.dstates = b.dstates ∧
        b'.dfinals = b.dfinals ∧
        (∃ ext2, b'.names = b.names ++ ext2) ∧
        SyncInv nfa b' ∧
        (∀ a ∈ syms, (stepSet nfa.transitions S a).isEmpty = false →
          memKey b'.processed (stepSet nfa.transitions S a) = true) ∧
        row' = syms.foldl (dfaRowStep nfa.transitions b'.names S) row := by
  intro syms
  induction syms with
  | nil =>
    intro b row b' row' hfold hsync
    simp only [List.foldl_nil] at hfold
    injection hfold with h1 h2
    subst h1
    subst h2
    exact ⟨[], by simp, by simp, rfl, rfl, rfl, ⟨[], by simp⟩, hsync,
      fun a ha => absurd ha (List.not_mem_nil a), by simp⟩
  | cons a rest ih =>
    intro b row b' row' hfold hsync
    simp only [List.foldl_cons] at hfold
    cases hT : (stepSet nfa.transitions S a).isEmpty with
    | true =>
      have hstep : procSym nfa.transitions S (b, row) a = (b, row) := by
        simp [procSym, hT]
      rw [hstep] at hfold
      obtain ⟨ext, h1, h2, h3, h4, h5, h6, h7, h8, h9⟩ := ih b row b' row' hfold hsync
      refine ⟨ext, h1, h2, h3, h4, h5, h6, h7, ?_, ?_⟩
      · intro a' ha' he
        rcases List.mem_cons.mp ha' with rfl | hin
        · rw [hT] at he
          exact absurd he (by decide)
        · exact h8 a' hin he
      · rw [List.foldl_cons,
          show dfaRowStep nfa.transitions b'.names S row a = row from by simp [dfaRowStep, hT]]
        exact h9
    | false =>
      cases hmem : memKey b.processed (stepSet nfa.transitions S a) with
      | true =>
        have hstep : procSym nfa.transitions S (b, row) a =
            (b, row ++ [(a, findName b.names (stepSet nfa.transitions S a))]) := by
          simp [procSym, hT, hmem]
        rw [hstep] at hfold
        obtain ⟨ext, h1, h2, h3, h4, h5, ⟨ext2, h6⟩, h7, h8, h9⟩ := ih b _ b' row' hfold hsync
        refine ⟨ext, h1, h2, h3, h4, h5, ⟨ext2, h6⟩, h7, ?_, ?_⟩
        · intro a' ha' he
          rcases List.mem_cons.mp ha' with rfl | hin
          · rw [h1]
            exact memKey_append_left hmem
          · exact h8 a' hin he
        · rw [List.foldl_cons,
            show dfaRowStep nfa.transitions b'.names S row a =
              row ++ [(a, findName b'.names (stepSet nfa.transitions S a))] from by
                simp [dfaRowStep, hT]]
          rw [h9]
          have hstab : findName b'.names (stepSet nfa.transitions S a) =
              findName b.names (stepSet nfa.transitions S a) := by
            rw [h6]
            refine findName_stable ?_
            rw [hsync.1]
            exact hmem
          rw [hstab]
      | false =>
        obtain ⟨hkeys, hvals, hnd, huniv, hne⟩ := hsync
        have hstep : procSym nfa.transitions S (b, row) a =
            ({ b with
                processed := b.processed ++ [stepSet nfa.transitions S a]
                queue := b.queue ++ [stepSet nfa.transitions S a]
                names := b.names ++ [(stepSet nfa.transitions S a, mkName b.nextIdx)]
                nextIdx := b.nextIdx + 1 },
             row ++ [(a, findName (b.names ++
               [(stepSet nfa.transitions S a, mkName b.nextIdx)])
               (stepSet nfa.transitions S a))]) := by
          simp [procSym, hT, hmem]
        rw [hstep] at hfold
        have hTinj : (stepSet nfa.transitions S a).toFinset ∉
            b.processed.map List.toFinset := by
          intro hc
          obtain ⟨k, hk, hkT⟩ := List.mem_map.mp hc
          have : setEqB k (stepSet nfa.transitions S a) = true := setEqB_toFinset.mpr hkT
          rw [show memKey b.processed (stepSet nfa.transitions S a) = true from
            memKey_iff.mpr ⟨k, hk, this⟩] at hmem
          exact absurd hmem (by decide)
        have hsync1 : SyncInv nfa
            { b with
              processed := b.processed ++ [stepSet nfa.transitions S a]
              queue := b.queue ++ [stepSet nfa.transitions S a]
              names := b.names ++ [(stepSet nfa.transitions S a, mkName b.nextIdx)]
              nextIdx := b.nextIdx + 1 } := by
          refine ⟨?_, ?_, ?_, ?_, ?_⟩
          · simp only [List.map_append, hkeys, List.map_cons, List.map_nil]
          · simp only [List.map_append, hvals, List.map_cons, List.map_nil,
              List.range_succ]
          · simp only [List.map_append, List.map_cons, List.map_nil]
            refine hnd.append (List.nodup_singleton _) ?_
            intro y hy hz
            have : y = (stepSet nfa.transitions S a).toFinset := by simpa using hz
            exact hTinj (this ▸ hy)
          · intro k hk x hx
            rcases List.mem_append.mp hk with h | h
            · exact huniv k h x hx
            · have : k = stepSet nfa.transitions S a := by simpa using h
              subst this
              exact stepSet_sub_univ hx
          · intro k hk
            rcases List.mem_append.mp hk with h | h
            · exact hne k h
            · have : k = stepSet nfa.transitions S a := by simpa using h
              subst this
              exact isEmpty_false_ne_nil hT
        obtain ⟨ext, h1, h2, h3, h4, h5, ⟨ext2, h6⟩, h7, h8, h9⟩ := ih _ _ b' row' hfold hsync1
        simp only at h1 h2 h3 h4 h5 h6
        refine ⟨stepSet nfa.transitions S a :: ext, ?_, ?_, h3, h4, h5,
          ⟨(stepSet nfa.transitions S a, mkName b.nextIdx) :: ext2, ?_⟩, h7, ?_, ?_⟩
        · rw [h1, List.append_assoc]
          rfl
        · rw [h2, List.append_assoc]
          rfl
        · rw [h6, List.append_assoc]
          rfl
        · intro a' ha' he
          rcases List.mem_cons.mp ha' with rfl | hin
          · rw [h1]
            refine memKey_append_left ?_
            exact memKey_iff.mpr ⟨stepSet nfa.transitions S a',
              List.mem_append.mpr (Or.inr (List.mem_singleton.mpr rfl)), setEqB_refl⟩
          · exact h8 a' hin he
        · rw [List.foldl_cons,
            show dfaRowStep nfa.transitions b'.names S row a =
              row ++ [(a, findName b'.names (stepSet nfa.transitions S a))] from by
                simp [dfaRowStep, hT]]
          rw [h9]
          have hstab : findName b'.names (stepSet nfa.transitions S a) =
              findName (b.names ++ [(stepSet nfa.transitions S a, mkName b.nextIdx)])
                (stepSet nfa.transitions S a) := by
            rw [h6]
            refine findName_stable ?_
            rw [show (b.names ++ [(stepSet nfa.transitions S a, mkName b.nextIdx)]).map
                (·.1) = b.processed ++ [stepSet nfa.transitions S a] from by
              simp only [List.map_append, hkeys, List.map_cons, List.map_nil]]
            exact memKey_iff.mpr ⟨stepSet nfa.transitions S a,
              List.mem_append.mpr (Or.inr (List.mem_singleton.mpr rfl)), setEqB_refl⟩
          rw [hstab]

theorem foldl_congr_mem {α β : Type} {f g : β → α → β} :
    ∀ (l : List α) (acc : β), (∀ acc' a, a ∈ l → f acc' a = g acc' a) →
      l.foldl f acc = l.foldl g acc := by
  intro l
  induction l with
  | nil => intro acc _; rfl
  | cons a l ih =>
    intro acc h
    simp only [List.foldl_cons]
    rw [h acc a (List.mem_cons_self a l)]
    exact ih _ (fun acc' a' ha' => h acc' a' (List.mem_cons_of_mem _ ha'))

theorem dfaRowFor_congr {tr : Table} {n1 n2 : List (List String × String)}
    {alpha : List String} {K : List String}
    (h : ∀ a ∈ alpha, (stepSet tr K a).isEmpty = false →
      findName n1 (stepSet tr K a) = findName n2 (stepSet tr K a)) :
    dfaRowFor tr n1 alpha K = dfaRowFor tr n2 alpha K := by
  unfold dfaRowFor
  refine foldl_congr_mem alpha [] ?_
  intro acc a ha
  unfold dfaRowStep
  cases hT : (stepSet tr K a).isEmpty with
  | true => simp [hT]
  | false => simp [hT, h a ha hT]

theorem buildStep_inv {nfa : NFAModel} {popped : List (List String)} {st : BuildSt}
    {S : List String} {rest : List (List String)}
    (inv : BInv nfa popped st) (hq : st.queue = S :: rest) (b' : BuildSt) (row' : DRow)
    (hfold : nfa.alphabet.foldl (procSym nfa.transitions S)
      ({ st with
          queue := rest
          dstates := st.dstates ++ [findName st.names S]
          dfinals := if inter nfa.finals S then st.dfinals ++ [findName st.names S]
                     else st.dfinals }, ([] : DRow)) = (b', row')) :
    ∃ ext, b'.processed = st.processed ++ ext ∧ b'.queue = rest ++ ext ∧
      BInv nfa (popped ++ [S])
        { b' with rows := b'.rows ++ [(findName st.names S, row')] } := by
  have hSmem : S ∈ st.processed := by
    rw [inv.proc_eq, hq]
    exact List.mem_append.mpr (Or.inr (List.mem_cons_self _ _))
  obtain ⟨ext, hp, hqE, hrows, hdst, hdfin, ⟨ext2, hnames⟩, hsync', hcov, hrow⟩ :=
    procSym_fold nfa.alphabet _ ([] : DRow) b' row' hfold inv.sync
  simp only at hp hqE hrows hdst hdfin hnames
  have hstabK : ∀ K ∈ st.processed, findName b'.names K = findName st.names K := by
    intro K hK
    rw [hnames]
    refine findName_stable ?_
    rw [inv.sync.1]
    exact memKey_iff.mpr ⟨K, hK, setEqB_refl⟩
  have hTstab : ∀ K ∈ popped, ∀ a ∈ nfa.alphabet,
      (stepSet nfa.transitions K a).isEmpty = false →
      findName b'.names (stepSet nfa.transitions K a) =
        findName st.names (stepSet nfa.transitions K a) := by
    intro K hK a ha hne
    rw [hnames]
    refine findName_stable ?_
    rw [inv.sync.1]
    exact inv.tcov K hK a ha hne
  have hpop : ∀ K ∈ popped, K ∈ st.processed := by
    intro K hK
    rw [inv.proc_eq]
    exact List.mem_append.mpr (Or.inl hK)
  refine ⟨ext, hp, hqE, ?_⟩
  refine ⟨hsync', ?_, ?_, ?_, ?_, ?_⟩
  · show b'.processed = (popped ++ [S]) ++ b'.queue
    rw [hp, hqE, inv.proc_eq, hq]
    simp
  · show b'.dstates = (popped ++ [S]).map (findName b'.names)
    rw [hdst]
    show st.dstates ++ [findName st.names S] = _
    rw [inv.dst, List.map_append]
    congr 1
    · exact (List.map_congr_left (fun K hK => hstabK K (hpop K hK))).symm
    · simp [hstabK S hSmem]
  · show b'.dfinals = ((popped ++ [S]).filter (fun K => inter nfa.finals K)).map
      (findName b'.names)
    rw [hdfin]
    show (if inter nfa.finals S then st.dfinals ++ [findName st.names S]
          else st.dfinals) = _
    rw [List.filter_append, List.map_append, inv.dfin]
    cases hphi : inter nfa.finals S with
    | true =>
      simp only [hphi, if_true]
      congr 1
      · refine (List.map_congr_left ?_).symm
        intro K hK
        exact hstabK K (hpop K (List.mem_of_mem_filter hK))
      · simp [List.filter, hphi, hstabK S hSmem]
    | false =>
      simp only [hphi, Bool.false_eq_true, if_false]
      rw [show List.filter (fun K => inter nfa.finals K) [S] = [] from by
        simp [List.filter, hphi]]
      simp only [List.map_nil, List.append_nil]
      refine (List.map_congr_left ?_).symm
      intro K hK
      exact hstabK K (hpop K (List.mem_of_mem_filter hK))
  · show b'.rows ++ [(findName st.names S, row')] = (popped ++ [S]).map
      (fun K => (findName b'.names K, dfaRowFor nfa.transitions b'.names nfa.alphabet K))
    rw [hrows]
    show st.rows ++ _ = _
    rw [inv.rows_eq, List.map_append]
    congr 1
    · refine (List.map_congr_left ?_).symm
      intro K hK
      rw [hstabK K (hpop K hK)]
      rw [dfaRowFor_congr (fun a ha hne => hTstab K hK a ha hne)]
    · simp only [List.map_cons, List.map_nil]
      rw [hstabK S hSmem, hrow]
      rfl
  · intro K hK a ha hne
    rcases List.mem_append.mp hK with h | h
    · rw [hp]
      exact memKey_append_left (inv.tcov K h a ha hne)
    · have : K = S := by simpa using h
      subst this
      exact hcov a ha hne

theorem buildLoop_succ {nfa : NFAModel} {f : Nat} {st : BuildSt} {S : List String}
    {rest : List (List String)} (hq : st.queue = S :: rest) :
    buildLoop nfa (f + 1) st = buildLoop nfa f (popStep nfa st S rest) := by
  simp only [buildLoop, hq]
  rfl

theorem popStep_inv {nfa : NFAModel} {popped : List (List String)} {st : BuildSt}
    {S : List String} {rest : List (List String)}
    (inv : BInv nfa popped st) (hq : st.queue = S :: rest) :
    ∃ ext, (popStep nfa st S rest).processed = st.processed ++ ext ∧
      (popStep nfa st S rest).queue = rest ++ ext ∧
      BInv nfa (popped ++ [S]) (popStep nfa st S rest) := by
  obtain ⟨ext, h1, h2, h3⟩ := buildStep_inv inv hq
    (nfa.alphabet.foldl (procSym nfa.transitions S)
      ({ st with
          queue := rest
          dstates := st.dstates ++ [findName st.names S]
          dfinals := if inter nfa.finals S then st.dfinals ++ [findName st.names S]
                     else st.dfinals }, ([] : DRow))).1
    (nfa.alphabet.foldl (procSym nfa.transitions S)
      ({ st with
          queue := rest
          dstates := st.dstates ++ [findName st.names S]
          dfinals := if inter nfa.finals S then st.dfinals ++ [findName st.names S]
                     else st.dfinals }, ([] : DRow))).2
    Prod.mk.eta.symm
  exact ⟨ext, h1, h2, h3⟩

theorem buildLoop_inv {nfa : NFAModel} :
    ∀ (fuel : Nat) (st : BuildSt) (popped : List (List String)),
      BInv nfa popped st →
      st.queue.length + 2 ^ (subsetUniv nfa).length ≤ fuel + st.processed.length →
      ∃ poppedF ext,
        BInv nfa poppedF (buildLoop nfa fuel st) ∧
        (buildLoop nfa fuel st).queue = [] ∧
        (buildLoop nfa fuel st).processed = st.processed ++ ext := by
  intro fuel
  induction fuel with
  | zero =>
    intro st popped inv hfuel
    have hcard := processed_card_le inv.sync
    have hq : st.queue = [] := by
      cases hqq : st.queue with
      | nil => rfl
      | cons a l =>
        rw [hqq] at hfuel
        simp only [List.length_cons] at hfuel
        omega
    refine ⟨popped, [], ?_, ?_, by simp [buildLoop]⟩
    · show BInv nfa popped st
      exact inv
    · show st.queue = []
      exact hq
  | succ f ih =>
    intro st popped inv hfuel
    cases hqq : st.queue with
    | nil =>
      have hloop : buildLoop nfa (f + 1) st = st := by
        simp only [buildLoop, hqq]
      rw [hloop]
      exact ⟨popped, [], inv, hqq, by simp⟩
    | cons S rest =>
      rw [buildLoop_succ hqq]
      obtain ⟨ext, h1, h2, inv'⟩ := popStep_inv inv hqq
      have hfuel' : (popStep nfa st S rest).queue.length + 2 ^ (subsetUniv nfa).length ≤
          f + (popStep nfa st S rest).processed.length := by
        rw [h1, h2]
        rw [hqq] at hfuel
        simp only [List.length_append, List.length_cons] at hfuel ⊢
        omega
      obtain ⟨poppedF, ext2, hinv, hqF, hpF⟩ := ih (popStep nfa st S rest) (popped ++ [S])
        inv' hfuel'
      refine ⟨poppedF, ext ++ ext2, hinv, hqF, ?_⟩
      rw [hpF, h1, List.append_assoc]

theorem subsetBuild_spec (nfa : NFAModel) :
    ∃ poppedF ext, BInv nfa poppedF (subsetBuild nfa) ∧ (subsetBuild nfa).queue = [] ∧
      (subsetBuild nfa).processed = [[nfa.start]] ++ ext := by
  have hinit : BInv nfa [] (initBuild nfa) := by
    refine ⟨⟨?_, ?_, ?_, ?_, ?_⟩, ?_, rfl, rfl, rfl, ?_⟩
    · rfl
    · rfl
    · simp [initBuild]
    · intro k hk x hx
      have : k = [nfa.start] := by simpa [initBuild] using hk
      subst this
      have : x = nfa.start := by simpa using hx
      subst this
      exact List.mem_cons_self _ _
    · intro k hk
      have : k = [nfa.start] := by simpa [initBuild] using hk
      subst this
      simp
    · rfl
    · intro K hK
      exact absurd hK (List.not_mem_nil K)
  have hfuel : (initBuild nfa).queue.length + 2 ^ (subsetUniv nfa).length ≤
      dfaFuel nfa + (initBuild nfa).processed.length := by
    simp only [initBuild, dfaFuel, List.length_cons, List.length_nil]
    omega
  obtain ⟨poppedF, ext, h1, h2, h3⟩ := buildLoop_inv (dfaFuel nfa) (initBuild nfa) [] hinit hfuel
  exact ⟨poppedF, ext, h1, h2, h3⟩

theorem list_eq_zip_maps {α β : Type} : ∀ (l : List (α × β)),
    l = (l.map (·.1)).zip (l.map (·.2)) := by
  intro l
  induction l with
  | nil => rfl
  | cons p l ih =>
    simp only [List.map_cons, List.zip_cons_cons]
    rw [← ih]

theorem names_get {nfa : NFAModel} {b : BuildSt} (hsync : SyncInv nfa b)
    {j : Nat} (hj : j < b.processed.length) :
    (b.processed.get ⟨j, hj⟩, mkName j) ∈ b.names := by
  obtain ⟨hkeys, hvals, -, -, -⟩ := hsync
  have hlen1 : b.names.length = b.processed.length := by
    rw [← hkeys, List.length_map]
  have hlen2 : b.names.length = b.nextIdx := by
    have := congrArg List.length hvals
    simpa using this
  have hzip := list_eq_zip_maps b.names
  rw [hkeys, hvals] at hzip
  have hj2 : j < (b.processed.zip ((List.range b.nextIdx).map mkName)).length := by
    rw [List.length_zip, List.length_map, List.length_range]
    omega
  have hget : (b.processed.zip ((List.range b.nextIdx).map mkName)).get ⟨j, hj2⟩ =
      (b.processed.get ⟨j, hj⟩, mkName j) := by
    rw [List.get_zip]
    congr 1
    rw [List.get_map]
    congr 1
    simp [List.getElem_range]
  rw [hzip]
  rw [← hget]
  exact List.get_mem _ j hj2

theorem findName_at {nfa : NFAModel} {b : BuildSt} (hsync : SyncInv nfa b)
    {j : Nat} (hj : j < b.processed.length) :
    findName b.names (b.processed.get ⟨j, hj⟩) = mkName j := by
  refine findName_of_mem_distinct (names_get hsync hj) ?_
  rw [hsync.1]
  exact hsync.2.2.1

theorem findName_inj_processed {nfa : NFAModel} {b : BuildSt} (hsync : SyncInv nfa b)
    {K K' : List String} (hK : K ∈ b.processed) (hK' : K' ∈ b.processed)
    (h : findName b.names K = findName b.names K') : K = K' := by
  obtain ⟨⟨j, hj⟩, hKj⟩ := List.mem_iff_get.mp hK
  obtain ⟨⟨j', hj'⟩, hKj'⟩ := List.mem_iff_get.mp hK'
  rw [← hKj, ← hKj'] at h ⊢
  rw [findName_at hsync hj, findName_at hsync hj'] at h
  have : j = j' := mkName_inj h
  subst this
  rfl

theorem dRowOf_map_inj {l : List (List String)} {f : List String → String}
    {g : List String → DRow} (hinj : ∀ K ∈ l, ∀ K' ∈ l, f K = f K' → K = K') :
    ∀ {K : List String}, K ∈ l → dRowOf (l.map (fun K => (f K, g K))) (f K) = g K := by
  induction l with
  | nil => intro K hK; exact absurd hK (List.not_mem_nil K)
  | cons K0 l ih =>
    intro K hK
    unfold dRowOf
    simp only [List.map_cons, List.find?]
    cases hb : f K0 == f K with
    | true =>
      have heq : f K0 = f K := by simpa using hb
      have : K0 = K := hinj K0 (List.mem_cons_self _ _) K hK heq
      subst this
      rfl
    | false =>
      have hne : K ≠ K0 := by
        intro h
        subst h
        rw [show (f K == f K) = true from by simp] at hb
        exact absurd hb (by decide)
      have hKl : K ∈ l := by
        rcases List.mem_cons.mp hK with h | h
        · exact absurd h hne
        · exact h
      have := ih (fun a ha a' ha' => hinj a (List.mem_cons_of_mem _ ha)
        a' (List.mem_cons_of_mem _ ha')) hKl
      unfold dRowOf at this
      exact this

theorem dfaRow_stable {tr : Table} {names : List (List String × String)} {S : List String}
    {a : String} {v : String × String} :
    ∀ (syms : List String) (row₀ : DRow),
      row₀.find? (fun q => q.1 == a) = some v →
      (syms.foldl (dfaRowStep tr names S) row₀).find? (fun q => q.1 == a) = some v := by
  intro syms
  induction syms with
  | nil => intro row₀ h; simpa using h
  | cons b syms ih =>
    intro row₀ h
    simp only [List.foldl_cons]
    refine ih _ ?_
    unfold dfaRowStep
    cases he : (stepSet tr S b).isEmpty with
    | true => simpa [he] using h
    | false =>
      simp only [he, Bool.false_eq_true, if_false]
      rw [List.find?_append, h]
      rfl

theorem dfaRow_absent {tr : Table} {names : List (List String × String)} {S : List String}
    {a : String} :
    ∀ (syms : List String) (row₀ : DRow), a ∉ syms →
      (syms.foldl (dfaRowStep tr names S) row₀).find? (fun q => q.1 == a) =
        row₀.find? (fun q => q.1 == a) := by
  intro syms
  induction syms with
  | nil => intro row₀ _; rfl
  | cons b syms ih =>
    intro row₀ hna
    have hab : a ≠ b := fun h => hna (h ▸ List.mem_cons_self b syms)
    simp only [List.foldl_cons]
    rw [ih _ (fun h => hna (List.mem_cons_of_mem _ h))]
    unfold dfaRowStep
    cases he : (stepSet tr S b).isEmpty with
    | true => simp [he]
    | false =>
      simp only [he, Bool.false_eq_true, if_false]
      rw [List.find?_append]
      have hsing : ([(b, findName names (stepSet tr S b))].find? (fun q => q.1 == a)) = none := by
        simp [List.find?, beq_eq_false_iff_ne.mpr (Ne.symm hab)]
      cases hf : row₀.find? (fun q => q.1 == a) with
      | some v => rfl
      | none => simp [hf, hsing]

theorem dfaRow_found {tr : Table} {names : List (List String × String)} {S : List String}
    {a : String} :
    ∀ (syms : List String) (row₀ : DRow), a ∈ syms →
      row₀.find? (fun q => q.1 == a) = none →
      (syms.foldl (dfaRowStep tr names S) row₀).find? (fun q => q.1 == a) =
        (if (stepSet tr S a).isEmpty then none
         else some (a, findName names (stepSet tr S a))) := by
  intro syms
  induction syms with
  | nil => intro row₀ h _; exact absurd h (List.not_mem_nil a)
  | cons b syms ih =>
    intro row₀ hmem h0
    simp only [List.foldl_cons]
    by_cases hab : a = b
    · subst hab
      cases he : (stepSet tr S a).isEmpty with
      | true =>
        rw [show dfaRowStep tr names S row₀ a = row₀ from by simp [dfaRowStep, he]]
        rw [if_pos rfl]
        by_cases hin : a ∈ syms
        · rw [ih _ hin h0, if_pos (by rw [he])]
        · rw [dfaRow_absent _ _ hin, h0]
      | false =>
        rw [show dfaRowStep tr names S row₀ a =
            row₀ ++ [(a, findName names (stepSet tr S a))] from by simp [dfaRowStep, he]]
        rw [if_neg (by simp [he])]
        refine dfaRow_stable _ _ ?_
        rw [List.find?_append, h0]
        simp [List.find?]
    · have hin : a ∈ syms := by
        rcases List.mem_cons.mp hmem with h | h
        · exact absurd h hab
        · exact h
      refine Eq.trans (ih _ hin ?_) rfl
      unfold dfaRowStep
      cases he : (stepSet tr S b).isEmpty with
      | true => simpa [he] using h0
      | false =>
        simp only [he, Bool.false_eq_true, if_false]
        rw [List.find?_append, h0]
        simp [List.find?, beq_eq_false_iff_ne.mpr (fun h => hab h.symm)]

theorem dfaRowFor_find {tr : Table} {names : List (List String × String)}
    {alpha : List String} {S : List String} {a : String} (ha : a ∈ alpha) :
    dTargetOf (dfaRowFor tr names alpha S) a =
      (if (stepSet tr S a).isEmpty then none
       else some (findName names (stepSet tr S a))) := by
  unfold dTargetOf dfaRowFor
  rw [dfaRow_found alpha [] ha rfl]
  cases he : (stepSet tr S a).isEmpty with
  | true => simp [he]
  | false => simp [he]

theorem dfaRowFor_elems {tr : Table} {names : List (List String × String)}
    {S : List String} :
    ∀ (syms : List String) (row₀ : DRow) (e : String × String),
      e ∈ syms.foldl (dfaRowStep tr names S) row₀ →
      e ∈ row₀ ∨ ∃ a ∈ syms, (stepSet tr S a).isEmpty = false ∧
        e = (a, findName names (stepSet tr S a)) := by
  intro syms
  induction syms with
  | nil => intro row₀ e h; exact Or.inl (by simpa using h)
  | cons b syms ih =>
    intro row₀ e h
    simp only [List.foldl_cons] at h
    rcases ih _ e h with h2 | ⟨a, ha, hne, he⟩
    · unfold dfaRowStep at h2
      cases he : (stepSet tr S b).isEmpty with
      | true =>
        rw [he] at h2
        simp only [if_true] at h2
        exact Or.inl h2
      | false =>
        rw [he] at h2
        simp only [Bool.false_eq_true, if_false] at h2
        rcases List.mem_append.mp h2 with h3 | h3
        · exact Or.inl h3
        · right
          refine ⟨b, List.mem_cons_self b syms, he, ?_⟩
          simpa using h3
    · exact Or.inr ⟨a, List.mem_cons_of_mem _ ha, hne, he⟩

theorem isEmpty_congr {A B : List String} (h : ∀ x, x ∈ A ↔ x ∈ B) :
    A.isEmpty = B.isEmpty := by
  rw [Bool.eq_iff_iff, List.isEmpty_iff, List.isEmpty_iff,
    List.eq_nil_iff_forall_not_mem, List.eq_nil_iff_forall_not_mem]
  constructor
  · intro h2 x hx
    exact h2 x ((h x).mpr hx)
  · intro h2 x hx
    exact h2 x ((h x).mp hx)

theorem nfa_dfa_go_equiv {nfa : NFAModel} {poppedF : List (List String)}
    (hinv : BInv nfa poppedF (subsetBuild nfa)) (hqF : (subsetBuild nfa).queue = []) :
    ∀ (w : List String) (C K : List String) (i i' : Nat)
      (acc : List (StepEntry (List String))) (acc' : List (StepEntry String)),
      K ∈ (subsetBuild nfa).processed → (∀ x, x ∈ K ↔ x ∈ C) →
      (nfaGo nfa C i acc w).accepted =
        (dfaGo nfa.toDFA (findName (subsetBuild nfa).names K) i' acc' w).accepted := by
  have hpop : poppedF = (subsetBuild nfa).processed := by
    have := hinv.proc_eq
    rw [hqF] at this
    simpa using this.symm
  have htr : nfa.toDFA.transitions = (subsetBuild nfa).rows := rfl
  have hfin : nfa.toDFA.finals = (subsetBuild nfa).dfinals := rfl
  have halph : nfa.toDFA.alphabet = nfa.alphabet := rfl
  intro w
  induction w with
  | nil =>
    intro C K i i' acc acc' hKmem hKC
    simp only [nfaGo, dfaGo]
    rw [Bool.eq_iff_iff, inter_iff, contains_iff, hfin, hinv.dfin]
    constructor
    · rintro ⟨x, hx1, hx2⟩
      refine List.mem_map.mpr ⟨K, ?_, rfl⟩
      refine List.mem_filter.mpr ⟨hpop ▸ hKmem, ?_⟩
      exact (inter_iff _ _).mpr ⟨x, hx1, (hKC x).mpr hx2⟩
    · intro hmem
      obtain ⟨K', hK', hname⟩ := List.mem_map.mp hmem
      obtain ⟨hK'pop, hphi⟩ := List.mem_filter.mp hK'
      have : K' = K := findName_inj_processed hinv.sync (hpop ▸ hK'pop) hKmem hname
      subst this
      obtain ⟨x, hx1, hx2⟩ := (inter_iff _ _).mp hphi
      exact ⟨x, hx1, (hKC x).mp hx2⟩
  | cons a w ih =>
    intro C K i i' acc acc' hKmem hKC
    cases hc : nfa.alphabet.contains a with
    | false =>
      have hc' : a ∉ nfa.alphabet := contains_eq_false.mp hc
      simp [nfaGo, dfaGo, halph, hc']
    | true =>
      have hc' : a ∈ nfa.alphabet := contains_iff.mp hc
      have hrowlk : dRowOf (subsetBuild nfa).rows (findName (subsetBuild nfa).names K) =
          dfaRowFor nfa.transitions (subsetBuild nfa).names nfa.alphabet K := by
        rw [hinv.rows_eq]
        exact dRowOf_map_inj
          (fun A hA A' hA' h => findName_inj_processed hinv.sync (hpop ▸ hA) (hpop ▸ hA') h)
          (hpop.symm ▸ hKmem)
      have hTmem : ∀ x, x ∈ stepSet nfa.transitions K a ↔ x ∈ stepSet nfa.transitions C a :=
        stepSet_congr hKC
      have hTe : (stepSet nfa.transitions K a).isEmpty =
          (stepSet nfa.transitions C a).isEmpty := isEmpty_congr hTmem
      have hlook : dTargetOf (dRowOf nfa.toDFA.transitions
          (findName (subsetBuild nfa).names K)) a =
          (if (stepSet nfa.transitions K a).isEmpty then none
           else some (findName (subsetBuild nfa).names (stepSet nfa.transitions K a))) := by
        rw [htr, hrowlk]
        exact dfaRowFor_find hc'
      cases hCe : (stepSet nfa.transitions C a).isEmpty with
      | true =>
        have hKe : (stepSet nfa.transitions K a).isEmpty = true := hTe.trans hCe
        rw [hKe, if_pos rfl] at hlook
        simp [nfaGo, dfaGo, halph, hc', hCe, hlook]
      | false =>
        have hKe : (stepSet nfa.transitions K a).isEmpty = false := hTe.trans hCe
        rw [hKe] at hlook
        rw [if_neg (by simp)] at hlook
        obtain ⟨K', hK'pop, hsetEq⟩ := memKey_iff.mp
          (hinv.tcov K (hpop ▸ hKmem) a hc' hKe)
        have hK'mem : K' ∈ (subsetBuild nfa).processed := hK'pop
        have hname : findName (subsetBuild nfa).names (stepSet nfa.transitions K a) =
            findName (subsetBuild nfa).names K' :=
          (findName_congr (setEqB_iff.mp hsetEq)).symm
        have hKC' : ∀ x, x ∈ K' ↔ x ∈ stepSet nfa.transitions C a :=
          fun x => (setEqB_iff.mp hsetEq x).trans (hTmem x)
        rw [hname] at hlook
        simp only [nfaGo, dfaGo, halph, hc, hCe, hlook, eq_self_iff_true, if_true,
          Bool.false_eq_true, if_false]
        exact ih _ K' _ _ _ _ hK'mem hKC'

/-- C1: for every NFA and every word, `NFA.process_word` and
`DFA.process_word` on the DFA produced by `NFA.to_dfa` return the same
accepted boolean.  (Proved for all words, which subsumes the claim's
bounded-length quantification; no validity hypothesis is needed because the
subset construction reads exactly the same transition entries the NFA run
does.) -/
theorem nfa_toDFA_equiv (nfa : NFAModel) (w : List String) :
    (NFAModel.processWord nfa w).accepted = (DFAModel.processWord nfa.toDFA w).accepted := by
  obtain ⟨poppedF, ext, hinv, hqF, hproc⟩ := subsetBuild_spec nfa
  unfold NFAModel.processWord DFAModel.processWord
  have hstart : nfa.toDFA.start = mkName 0 := rfl
  have h0 : 0 < (subsetBuild nfa).processed.length := by
    rw [hproc]
    simp
  have hget : (subsetBuild nfa).processed.get ⟨0, h0⟩ = [nfa.start] := by
    have : (subsetBuild nfa).processed = [nfa.start] :: ext := by simpa using hproc
    simp [this]
  have hinit_mem : [nfa.start] ∈ (subsetBuild nfa).processed := by
    rw [← hget]
    exact List.get_mem _ 0 h0
  have hname0 : findName (subsetBuild nfa).names [nfa.start] = mkName 0 := by
    rw [← hget]
    exact findName_at hinv.sync h0
  rw [hstart, ← hname0]
  exact nfa_dfa_go_equiv hinv hqF w [nfa.start] [nfa.start] 0 0 [] [] hinit_mem
    (fun x => Iff.rfl)

/-- C4: the completed worklist state of `NFA.to_dfa` (a FIFO queue popped at
the head, appended at the tail) assigns names Q0, Q1, … in first-discovery
order; the first discovered subset is `{start}`, named Q0, which is the
produced DFA's start state; a (subset, symbol) pair with empty target union
records no transition at all (the table is deliberately partial — no trap
state); and a produced state is final iff its subset meets `nfa.finals`. -/
theorem toDFA_build_spec (nfa : NFAModel) :
    ((subsetBuild nfa).names.map (·.2) =
      (List.range (subsetBuild nfa).names.length).map mkName) ∧
    ((subsetBuild nfa).names.get? 0 = some ([nfa.start], mkName 0)) ∧
    nfa.toDFA.start = mkName 0 ∧
    (∀ K ∈ (subsetBuild nfa).processed, ∀ a ∈ nfa.alphabet,
      dTargetOf (dRowOf nfa.toDFA.transitions (findName (subsetBuild nfa).names K)) a =
        (if (stepSet nfa.transitions K a).isEmpty then none
         else some (findName (subsetBuild nfa).names (stepSet nfa.transitions K a)))) ∧
    (∀ K ∈ (subsetBuild nfa).processed,
      (findName (subsetBuild nfa).names K ∈ nfa.toDFA.finals ↔
        inter nfa.finals K = true)) := by
  obtain ⟨poppedF, ext, hinv, hqF, hproc⟩ := subsetBuild_spec nfa
  have hpop : poppedF = (subsetBuild nfa).processed := by
    have := hinv.proc_eq
    rw [hqF] at this
    simpa using this.symm
  have hlen : (subsetBuild nfa).names.length = (subsetBuild nfa).nextIdx := by
    have := congrArg List.length hinv.sync.2.1
    simpa using this
  refine ⟨?_, ?_, rfl, ?_, ?_⟩
  · rw [hlen]
    exact hinv.sync.2.1
  · have h0 : 0 < (subsetBuild nfa).processed.length := by
      rw [hproc]
      simp
    have hget : (subsetBuild nfa).processed.get ⟨0, h0⟩ = [nfa.start] := by
      have : (subsetBuild nfa).processed = [nfa.start] :: ext := by simpa using hproc
      simp [this]
    have hmem := names_get hinv.sync h0
    rw [hget] at hmem
    have h0n : 0 < (subsetBuild nfa).names.length := by
      rw [hlen]
      have := congrArg List.length hinv.sync.1
      simp only [List.length_map] at this
      omega
    obtain ⟨⟨j, hj⟩, hjget⟩ := List.mem_iff_get.mp hmem
    have hj0 : j = 0 := by
      have hvals := hinv.sync.2.1
      have hjlt : j < (subsetBuild nfa).nextIdx := by
        rw [← hlen]
        exact hj
      have hsnd : (((subsetBuild nfa).names.map (·.2)).get? j) = some (mkName 0) := by
        rw [List.get?_eq_get (by simpa using hj), List.get_map]
        rw [show (subsetBuild nfa).names.get ⟨j, hj⟩ = ([nfa.start], mkName 0) from hjget]
      rw [hvals] at hsnd
      have hval2 : ((List.range (subsetBuild nfa).nextIdx).map mkName).get? j =
          some (mkName j) := by
        rw [List.get?_eq_get (by simpa using hjlt), List.get_map]
        simp [List.getElem_range]
      rw [hval2] at hsnd
      exact mkName_inj (Option.some.inj hsnd)
    subst hj0
    rw [List.get?_eq_get hj, hjget]
  · intro K hK a ha
    have hrowlk : dRowOf (subsetBuild nfa).rows (findName (subsetBuild nfa).names K) =
        dfaRowFor nfa.transitions (subsetBuild nfa).names nfa.alphabet K := by
      rw [hinv.rows_eq]
      exact dRowOf_map_inj
        (fun A hA A' hA' h => findName_inj_processed hinv.sync (hpop ▸ hA) (hpop ▸ hA') h)
        (hpop.symm ▸ hK)
    show dTargetOf (dRowOf (subsetBuild nfa).rows _) a = _
    rw [hrowlk]
    exact dfaRowFor_find ha
  · intro K hK
    show findName (subsetBuild nfa).names K ∈ (subsetBuild nfa).dfinals ↔ _
    rw [hinv.dfin]
    constructor
    · intro hmem
      obtain ⟨K', hK', hname⟩ := List.mem_map.mp hmem
      obtain ⟨hK'pop, hphi⟩ := List.mem_filter.mp hK'
      have : K' = K := findName_inj_processed hinv.sync (hpop ▸ hK'pop) hK hname
      subst this
      exact hphi
    · intro hphi
      exact List.mem_map.mpr ⟨K, List.mem_filter.mpr ⟨hpop.symm ▸ hK, hphi⟩, rfl⟩

theorem toDFA_build_spec_witness :
    (dTargetOf (dRowOf nfaB.toDFA.transitions (findName (subsetBuild nfaB).names ["S"])) "a" =
      (if (stepSet nfaB.transitions ["S"] "a").isEmpty then none
       else some (findName (subsetBuild nfaB).names (stepSet nfaB.transitions ["S"] "a")))) ∧
    (findName (subsetBuild nfaB).names ["S"] ∈ nfaB.toDFA.finals ↔
      inter nfaB.finals ["S"] = true) :=
  ⟨(toDFA_build_spec nfaB).2.2.2.1 ["S"] (by decide) "a" (by decide),
   (toDFA_build_spec nfaB).2.2.2.2 ["S"] (by decide)⟩

theorem enfaRow_elems {tr : Table} {s : String} :
    ∀ (syms : List String) (row₀ : Row) (q : String × List String),
      q ∈ syms.foldl (enfaRowStep tr s) row₀ →
      q ∈ row₀ ∨ ∃ a ∈ syms, (enfaTgt tr s a).isEmpty = false ∧
        q = (a, sortStr (enfaTgt tr s a)) := by
  intro syms
  induction syms with
  | nil => intro row₀ q h; exact Or.inl (by simpa using h)
  | cons b syms ih =>
    intro row₀ q h
    simp only [List.foldl_cons] at h
    rcases ih _ q h with h2 | ⟨a, ha, hne, he⟩
    · unfold enfaRowStep at h2
      cases he : (enfaTgt tr s b).isEmpty with
      | true =>
        rw [he] at h2
        simp only [if_true] at h2
        exact Or.inl h2
      | false =>
        rw [he] at h2
        simp only [Bool.false_eq_true, if_false] at h2
        rcases List.mem_append.mp h2 with h3 | h3
        · exact Or.inl h3
        · right
          refine ⟨b, List.mem_cons_self b syms, he, ?_⟩
          simpa using h3
    · exact Or.inr ⟨a, List.mem_cons_of_mem _ ha, hne, he⟩

theorem targetsOf_table {tr : Table} {s a x : String}
    (h : x ∈ targetsOf (rowOf tr s) a) : ∃ p ∈ tr, ∃ q ∈ p.2, x ∈ q.2 := by
  unfold targetsOf rowOf at h
  cases hf : tr.find? (fun p => p.1 == s) with
  | none => rw [hf] at h; exact absurd h (by simp)
  | some p =>
    rw [hf] at h
    simp only [Option.map_some', Option.getD_some] at h
    cases hg : p.2.find? (fun q => q.1 == a) with
    | none => rw [hg] at h; exact absurd h (by simp)
    | some q =>
      rw [hg] at h
      simp only [Option.map_some', Option.getD_some] at h
      exact ⟨p, List.mem_of_find?_eq_some hf, q, List.mem_of_find?_eq_some hg, h⟩

theorem closure_sub {tr : Table} {states : List String}
    (h : ∀ p ∈ tr, ∀ q ∈ p.2, ∀ t ∈ q.2, t ∈ states) {X : List String} {x : String}
    (hx : x ∈ epsilonClosure tr X) : x ∈ states ∨ x ∈ X := by
  have hr := epsilonClosure_sound hx
  induction hr with
  | base hb => exact Or.inr hb
  | step _ hmv _ =>
    obtain ⟨p, hp, q, hq, ht⟩ := targetsOf_table hmv
    exact Or.inl (h p hp q hq _ ht)

/-- C8: neither conversion can produce a model that fails validation.
`NFA.to_dfa`'s output always constructs cleanly (no hypothesis needed), and
`ENFA.to_nfa`'s output constructs cleanly whenever its source was itself
constructed without fatal violations; the fatal-error branch of `validate`
is unreachable on a conversion's output. -/
theorem conversions_validate :
    (∀ nfa : NFAModel, ∃ res, constructD nfa.toDFA.states nfa.toDFA.alphabet
        nfa.toDFA.transitions nfa.toDFA.start nfa.toDFA.finals = Except.ok res) ∧
    (∀ m : NFAModel, validateErrors m.states m.transitions m.start m.finals = [] →
      ∃ res, construct (ENFA.toNFA m).states (ENFA.toNFA m).alphabet
        (ENFA.toNFA m).transitions (ENFA.toNFA m).start (ENFA.toNFA m).finals =
        Except.ok res) := by
  constructor
  · intro nfa
    obtain ⟨poppedF, ext, hinv, hqF, hproc⟩ := subsetBuild_spec nfa
    have hpop : poppedF = (subsetBuild nfa).processed := by
      have := hinv.proc_eq
      rw [hqF] at this
      simpa using this.symm
    have h0 : 0 < (subsetBuild nfa).processed.length := by
      rw [hproc]
      simp
    have hget : (subsetBuild nfa).processed.get ⟨0, h0⟩ = [nfa.start] := by
      have : (subsetBuild nfa).processed = [nfa.start] :: ext := by simpa using hproc
      simp [this]
    have hdst_mem : ∀ K ∈ (subsetBuild nfa).processed,
        findName (subsetBuild nfa).names K ∈ (subsetBuild nfa).dstates := by
      intro K hK
      rw [hinv.dst]
      exact List.mem_map.mpr ⟨K, hpop ▸ hK, rfl⟩
    have herr : validateErrors (setList nfa.toDFA.states)
        (dfaToTable nfa.toDFA.transitions) nfa.toDFA.start
        (setList nfa.toDFA.finals) = [] := by
      refine (validateErrors_eq_nil_iff _ _ _ _).mpr ⟨?_, ?_, ?_, ?_⟩
      · refine mem_setList.mpr ?_
        show mkName 0 ∈ (subsetBuild nfa).dstates
        have hmem0 : [nfa.start] ∈ (subsetBuild nfa).processed := by
          rw [← hget]
          exact List.get_mem _ 0 h0
        have hname0 : findName (subsetBuild nfa).names [nfa.start] = mkName 0 := by
          rw [← hget]
          exact findName_at hinv.sync h0
        rw [← hname0]
        exact hdst_mem _ hmem0
      · intro f hf
        refine mem_setList.mpr ?_
        have hf2 : f ∈ (subsetBuild nfa).dfinals := mem_setList.mp hf
        rw [hinv.dfin] at hf2
        obtain ⟨K, hK, rfl⟩ := List.mem_map.mp hf2
        exact hdst_mem K (hpop ▸ List.mem_of_mem_filter hK)
      · intro p hp
        obtain ⟨o, ho, rfl⟩ := List.mem_map.mp hp
        show o.1 ∈ setList nfa.toDFA.states
        refine mem_setList.mpr ?_
        have ho2 : o ∈ (subsetBuild nfa).rows := ho
        rw [hinv.rows_eq] at ho2
        obtain ⟨K, hK, rfl⟩ := List.mem_map.mp ho2
        exact hdst_mem K (hpop ▸ hK)
      · intro p hp q hq t ht
        obtain ⟨o, ho, rfl⟩ := List.mem_map.mp hp
        obtain ⟨e, he, rfl⟩ := List.mem_map.mp hq
        have ht2 : t = e.2 := by simpa using ht
        subst ht2
        have ho2 : o ∈ (subsetBuild nfa).rows := ho
        rw [hinv.rows_eq] at ho2
        obtain ⟨K, hK, rfl⟩ := List.mem_map.mp ho2
        rcases dfaRowFor_elems nfa.alphabet [] e he with h2 | ⟨a, ha, hne, rfl⟩
        · exact absurd h2 (List.not_mem_nil e)
        · refine mem_setList.mpr ?_
          obtain ⟨K'', hK'', hsetEq⟩ := memKey_iff.mp (hinv.tcov K hK a ha hne)
          show findName (subsetBuild nfa).names (stepSet nfa.transitions K a) ∈ _
          rw [show findName (subsetBuild nfa).names (stepSet nfa.transitions K a) =
              findName (subsetBuild nfa).names K'' from
            (findName_congr (setEqB_iff.mp hsetEq)).symm]
          exact hdst_mem K'' hK''
    refine ⟨(⟨setList nfa.toDFA.states, setList nfa.toDFA.alphabet, nfa.toDFA.transitions,
      nfa.toDFA.start, setList nfa.toDFA.finals⟩,
      validateWarnings (setList nfa.toDFA.states) (setList nfa.toDFA.alphabet)
        (dfaToTable nfa.toDFA.transitions)), ?_⟩
    unfold constructD
    rw [if_pos (List.isEmpty_iff.mpr herr)]
  · intro m hval
    obtain ⟨hstart, hfin, hsrc, htgt⟩ := (validateErrors_eq_nil_iff _ _ _ _).mp hval
    have herr : validateErrors (setList (ENFA.toNFA m).states)
        (ENFA.toNFA m).transitions (ENFA.toNFA m).start
        (setList (ENFA.toNFA m).finals) = [] := by
      refine (validateErrors_eq_nil_iff _ _ _ _).mpr ⟨?_, ?_, ?_, ?_⟩
      · exact mem_setList.mpr hstart
      · intro f hf
        refine mem_setList.mpr ?_
        have : f ∈ (ENFA.toNFA m).finals := mem_setList.mp hf
        exact List.mem_of_mem_filter this
      · intro p hp
        obtain ⟨s, hs, rfl⟩ := List.mem_map.mp hp
        exact mem_setList.mpr hs
      · intro p hp q hq t ht
        obtain ⟨s, hs, rfl⟩ := List.mem_map.mp hp
        rcases enfaRow_elems m.alphabet [] q hq with h2 | ⟨a, ha, hne, rfl⟩
        · exact absurd h2 (List.not_mem_nil q)
        · refine mem_setList.mpr ?_
          have ht2 : t ∈ enfaTgt m.transitions s a := mem_sortStr.mp ht
          unfold enfaTgt at ht2
          rcases closure_sub htgt ht2 with h3 | h3
          · exact h3
          · obtain ⟨y, _, hty⟩ := stepSet_mem.mp h3
            obtain ⟨p', hp', q', hq', ht'⟩ := targetsOf_table hty
            exact htgt p' hp' q' hq' t ht'
    refine ⟨(⟨setList (ENFA.toNFA m).states, setList (ENFA.toNFA m).alphabet,
      (ENFA.toNFA m).transitions, (ENFA.toNFA m).start, setList (ENFA.toNFA m).finals⟩,
      validateWarnings (setList (ENFA.toNFA m).states) (setList (ENFA.toNFA m).alphabet)
        (ENFA.toNFA m).transitions), ?_⟩
    unfold construct
    rw [if_pos (List.isEmpty_iff.mpr herr)]

theorem conversions_validate_witness :
    ∃ res, construct (ENFA.toNFA enfaC).states (ENFA.toNFA enfaC).alphabet
      (ENFA.toNFA enfaC).transitions (ENFA.toNFA enfaC).start
      (ENFA.toNFA enfaC).finals = Except.ok res :=
  conversions_validate.2 enfaC (by decide)
